import Mathlib

/-!
Verification development for the ICM (Independent Chip Model) equity calculator
in `src/game/icm.rs`.

The Rust source is embedded shallowly:

* `f64` stack/payout arithmetic on the exact solver path is modelled with `ℚ`
  (every operation on that path — sums, division, multiplication — is exact
  real arithmetic in the source's intent; rounding is not modelled).
* `i32` inputs are modelled as `ℤ` (the source only compares them with `min`
  and casts them to `f64`, both of which are exact).
* the `u64` player bitmask is modelled as `ℕ` together with the explicit
  64-bit operations the source performs (`count_ones`, `& !(1 << i)`,
  `u64::MAX >> k`).
* the `DashMap` cache is modelled as an explicit state `ℤ → Option ICMEquity`
  threaded through `calculate`; an insert is a function update.
* the Monte Carlo estimator's per-thread random draws
  (`rng.f32().powf(exponents[p])`) and the rayon thread count are modelled as
  explicit parameters `draws : ℕ → ℕ → ℕ → ℚ` (thread → iteration → player →
  drawn value, already raised to the player's exponent) and `num_threads : ℕ`;
  the rayon `reduce` is modelled as a left fold over the threads (one of the
  reduction schedules rayon may choose; the capacity-based operand swap in the
  source is a memory-layout detail with no counterpart here).
* the estimator's exponent computation (`(avg_chips / stack) as f32`), whose
  whole point of interest is its behaviour on zero stacks, is modelled
  separately over a type `FVal` of rationals extended with the IEEE-754
  special values `+∞`, `-∞`, `NaN`, with IEEE division rules for those cases.
-/

namespace ICM

/-- Pointwise sum of two equity vectors; models the `+=` accumulation loops of
the source acting on a whole vector at once. -/
def addVec (a b : List ℚ) : List ℚ := List.zipWith (· + ·) a b

/-- Population count of a 64-bit mask: models `u64::count_ones` (for masks
below `2 ^ 64`, which is every mask the program builds). -/
def popCount64 (m : ℕ) : ℕ := (List.range 64).countP (fun i => m.testBit i)

/-- Indices of the active players, in ascending order: models the loop at
lines 135–140 of the source, which walks `all_stacks.iter().enumerate()` and
keeps the indices whose bit is set in `player_mask`. -/
def activeIndices (n : ℕ) (m : ℕ) : List ℕ :=
  (List.range n).filter (fun i => m.testBit i)

/-- Total stacks of the active players (`sub_total_stacks` in the source). -/
def sub_total_stacks (all_stacks : List ℚ) (m : ℕ) : ℚ :=
  ((activeIndices all_stacks.length m).map (fun i => all_stacks.getD i 0)).sum

/-- The mask with the winner's bit removed:
models `player_mask & !(1u64 << winner_original_idx)` (line 159). -/
def nextMask (player_mask : ℕ) (winner_original_idx : ℕ) : ℕ :=
  player_mask &&& ((2 ^ 64 - 1) ^^^ (1 <<< winner_original_idx))

mutual

/-- The exact recursive ICM solver, `calculate_exact_recursive`
(lines 110–185 of the source), without the memo table.

The memo table of the source is a pure performance device: it caches the
value of this very function at `(player_mask, payout_idx)` inside one
top-level call, so the function computes the same vector with or without it.
The mutating accumulation loop of the source (lines 148–180) adds, for each
candidate winner position `i`, an independent increment vector
(`winner_contrib`, see below) onto `total_equities`; it is rendered here as a
fold of `addVec` over those increments. -/
def calculate_exact_recursive (payouts : List ℚ) (all_stacks : List ℚ)
    (player_mask : ℕ) (payout_idx : ℕ) : List ℚ :=
  let num_active_players := popCount64 player_mask
  if h1 : payouts.length ≤ payout_idx ∨ num_active_players = 0 then
    List.replicate num_active_players 0
  else
    if sub_total_stacks all_stacks player_mask = 0 then
      List.replicate num_active_players 0
    else
      ((List.range num_active_players).map
        (fun i => winner_contrib payouts all_stacks player_mask payout_idx i)).foldl
        addVec (List.replicate num_active_players 0)
termination_by (payouts.length - payout_idx, 1)
decreasing_by apply Prod.Lex.right; omega

/-- One iteration of the winner loop, lines 148–180 of the source: the
increment that candidate winner position `i` (the `i`-th active player)
contributes to `total_equities`. It consists of the direct payout term of
line 156 and, when there is a further payout and further players (line 160),
the probability-weighted distribution (lines 166–178) of the recursive
result for the remaining players; the index adjustment
`if j < i then j else j - 1` is the source's `sub_equity_idx` counter, which
skips the winner. -/
def winner_contrib (payouts : List ℚ) (all_stacks : List ℚ)
    (player_mask : ℕ) (payout_idx : ℕ) (i : ℕ) : List ℚ :=
  let num_active_players := popCount64 player_mask
  let sub_total := sub_total_stacks all_stacks player_mask
  let winner_original_idx := (activeIndices all_stacks.length player_mask).getD i 0
  let winner_stacks := all_stacks.getD winner_original_idx 0
  let prob_win := winner_stacks / sub_total
  let direct := (List.range num_active_players).map
    (fun j => if j = i then prob_win * payouts.getD payout_idx 0 else 0)
  let next_mask := nextMask player_mask winner_original_idx
  if h2 : next_mask ≠ 0 ∧ payout_idx + 1 < payouts.length then
    let sub_equities :=
      calculate_exact_recursive payouts all_stacks next_mask (payout_idx + 1)
    addVec direct ((List.range num_active_players).map
      (fun j => if j = i then 0
        else prob_win * sub_equities.getD (if j < i then j else j - 1) 0))
  else direct
termination_by (payouts.length - payout_idx, 0)
decreasing_by apply Prod.Lex.left; omega

end

/-- Iteration count constant `NUM_ITERS` (line 7). -/
def NUM_ITERS : ℕ := 80000

/-- One simulated tournament outcome: the players ranked by their drawn
values, best first. Models lines 216–224: a descending sort of
`indexed_values` by value (the source's top-k `select_nth_unstable_by`
followed by sorting the prefix orders the first `min(num_payouts,
num_players)` positions exactly as a full descending sort does, and only
those positions are consumed by the payout loop). Ties, which the source's
unstable sort orders arbitrarily, are resolved here in favour of the smaller
player index. -/
def rankPlayers (vals : ℕ → ℚ) (num_players : ℕ) : List ℕ :=
  (List.range num_players).mergeSort (fun i j => vals j ≤ vals i)

/-- Payout distribution of one simulated outcome, lines 227–229:
`equities[player_id] += payout` over `ranked.zip(payouts)`. -/
def distributePayouts (payouts : List ℚ) (ranked : List ℕ) (num_players : ℕ) :
    List ℚ :=
  (ranked.zip payouts).foldl
    (fun equities pp => equities.set pp.1 (equities.getD pp.1 0 + pp.2))
    (List.replicate num_players 0)

/-- The Monte Carlo estimator `calculate_estimate` (lines 187–250).
`draws t iter p` stands for the random value `rng.f32().powf(exponents[p])`
drawn by thread `t` in its iteration `iter` for player `p`; `num_threads`
stands for `rayon::current_num_threads()`. -/
def calculate_estimate (payouts : List ℚ) (chip_stacks : List ℚ)
    (num_iters : ℕ) (draws : ℕ → ℕ → ℕ → ℚ) (num_threads : ℕ) : List ℚ :=
  let num_players := chip_stacks.length
  let total_iters := num_iters * num_players
  let iters_per_thread := total_iters / num_threads + 1
  let thread_equities : ℕ → List ℚ := fun t =>
    ((List.range iters_per_thread).foldl
      (fun equities iter =>
        addVec equities
          (distributePayouts payouts (rankPlayers (draws t iter) num_players)
            num_players))
      (List.replicate num_players 0)).map
      (fun equity => equity / (iters_per_thread : ℚ))
  (List.range num_threads).foldl
    (fun a t =>
      List.zipWith (fun x y => x + y / (num_threads : ℚ)) a (thread_equities t))
    (List.replicate num_players 0)

/-- Cached equity pair for a two-player query, `ICMEquity` (lines 9–13). -/
structure ICMEquity where
  short_stack_player : ℚ
  deep_stack_player : ℚ
deriving DecidableEq

/-- The calculator's immutable data (lines 15–23); the `DashMap` cache is
modelled as explicit state threaded through `calculate`. -/
structure ICMCalculator where
  payouts : List ℚ
  other_players_stacks : List ℚ

/-- Constructor `ICMCalculator::new` (lines 32–41): converts the `i32` inputs
to reals. -/
def ICMCalculator.new (other_players_stacks : List ℤ)
    (payout_structure : List ℤ) : ICMCalculator :=
  ⟨payout_structure.map (fun p => (p : ℚ)),
   other_players_stacks.map (fun p => (p : ℚ))⟩

/-- The orchestrator `calculate` (lines 44–96). Returns the `(equityA,
equityB)` pair together with the cache state after the call. `draws` and
`num_threads` parametrise the randomness and thread count of the estimator
path exactly as in `calculate_estimate`. -/
def calculate (c : ICMCalculator) (draws : ℕ → ℕ → ℕ → ℚ) (num_threads : ℕ)
    (cache : ℤ → Option ICMEquity) (stacks_a stacks_b : ℤ) :
    (ℚ × ℚ) × (ℤ → Option ICMEquity) :=
  let cache_key := min stacks_a stacks_b
  match cache cache_key with
  | some equity =>
      if stacks_a ≤ stacks_b then
        ((equity.short_stack_player, equity.deep_stack_player), cache)
      else
        ((equity.deep_stack_player, equity.short_stack_player), cache)
  | none =>
      if c.payouts = [] then
        ((0, 0), fun k => if k = stacks_a then some ⟨0, 0⟩ else cache k)
      else
        let num_players := c.other_players_stacks.length + 2
        let all_stacks := (stacks_a : ℚ) :: (stacks_b : ℚ) :: c.other_players_stacks
        let all_equities :=
          if 16 < c.payouts.length ∨ 64 < num_players then
            calculate_estimate c.payouts all_stacks NUM_ITERS draws num_threads
          else
            calculate_exact_recursive c.payouts all_stacks
              ((2 ^ 64 - 1) >>> (64 - num_players)) 0
        let equities_a := all_equities.getD 0 0
        let equities_b := all_equities.getD 1 0
        let result : ICMEquity :=
          if stacks_a ≤ stacks_b then ⟨equities_a, equities_b⟩
          else ⟨equities_b, equities_a⟩
        ((equities_a, equities_b), fun k => if k = cache_key then some result else cache k)

/-- Exchange of the first two entries of an equity vector (the equities of
players A and B, who occupy stack positions 0 and 1). -/
def swapFirstTwo : List ℚ → List ℚ
  | x :: y :: t => y :: x :: t
  | l => l

/-- The transposition of positions 0 and 1. -/
def tau (x : ℕ) : ℕ := if x = 0 then 1 else if x = 1 then 0 else x

/-- Rationals extended with the IEEE-754 special values, for the estimator's
`f64`/`f32` exponent computation, where non-finite values can arise. The
rounding of finite values is not modelled (it cannot affect finiteness for
the `i32`-derived magnitudes involved), and there is no negative zero. -/
inductive FVal where
  | finite : ℚ → FVal
  | posInf : FVal
  | negInf : FVal
  | nan : FVal
deriving DecidableEq

/-- Finiteness test, as in `f64::is_finite`. -/
def FVal.isFinite : FVal → Bool
  | FVal.finite _ => true
  | _ => false

/-- IEEE-754 division on `FVal`: a positive finite value divided by zero is
`+∞`, a negative one is `-∞`, and `0 / 0` is `NaN`. -/
def fdiv : FVal → FVal → FVal
  | FVal.finite x, FVal.finite y =>
      if y = 0 then
        (if 0 < x then FVal.posInf else if x < 0 then FVal.negInf else FVal.nan)
      else FVal.finite (x / y)
  | FVal.finite _, FVal.posInf => FVal.finite 0
  | FVal.finite _, FVal.negInf => FVal.finite 0
  | FVal.posInf, FVal.finite y => if 0 ≤ y then FVal.posInf else FVal.negInf
  | FVal.negInf, FVal.finite y => if 0 ≤ y then FVal.negInf else FVal.posInf
  | _, _ => FVal.nan

/-- The estimator's exponent computation, lines 191–197 of the source:
`total_chips = Σ chip_stacks`, `avg_chips = total_chips / num_players`,
`exponents[p] = (avg_chips / chip_stacks[p]) as f32`. The sum and the average
of `i32`-derived stacks are finite in `f64`, and the `as f32` cast maps
infinities to infinities, so the `FVal` results faithfully record which
exponents are non-finite. -/
def exponents (chip_stacks : List ℚ) : List FVal :=
  let total_chips : ℚ := chip_stacks.sum
  let avg_chips : ℚ := total_chips / (chip_stacks.length : ℚ)
  chip_stacks.map (fun stack => fdiv (FVal.finite avg_chips) (FVal.finite stack))

/-- C7: at an estimator-path stack vector with a busted player (player 0 has
stack 0; 66 further players hold 1000 chips each, so 67 players dispatch to
the estimator), the exponent the source computes for the zero-stack player,
`(avg_chips / stack) as f32` with `stack = 0.0`, is `+∞` — a non-finite
value. There is no guard: the code relies on `powf(+∞)` mapping the player's
draws to `0`. -/
theorem C7_zero_stack_exponent_infinite :
    (exponents ((0 : ℚ) :: List.replicate 66 1000)).getD 0 FVal.nan = FVal.posInf
      ∧ FVal.isFinite ((exponents ((0 : ℚ) :: List.replicate 66 1000)).getD 0 FVal.nan)
        = false := by
  have hval : (exponents ((0 : ℚ) :: List.replicate 66 1000)).getD 0 FVal.nan
      = FVal.posInf := by
    unfold exponents
    simp only [List.map_cons, List.getD_cons_zero]
    have hsum : ((0 : ℚ) :: List.replicate 66 1000).sum = 66000 := by
      rw [List.sum_cons, List.sum_replicate, zero_add, nsmul_eq_mul]
      norm_num
    have hlen : ((((0 : ℚ) :: List.replicate 66 1000).length : ℕ) : ℚ) = 67 := by
      rw [List.length_cons, List.length_replicate]
      norm_num
    rw [hsum, hlen]
    norm_num [fdiv]
  exact ⟨hval, by rw [hval]; rfl⟩

/-! ### Pointwise-sum vector lemmas -/

theorem length_addVec (a b : List ℚ) : (addVec a b).length = min a.length b.length :=
  List.length_zipWith _ _ _

theorem getD_addVec : ∀ (a b : List ℚ), a.length = b.length → ∀ (j : ℕ),
    (addVec a b).getD j 0 = a.getD j 0 + b.getD j 0 := by
  intro a
  induction a with
  | nil =>
    intro b h j
    cases b with
    | nil => simp [addVec]
    | cons y ys => simp at h
  | cons x xs ih =>
    intro b h j
    cases b with
    | nil => simp at h
    | cons y ys =>
      cases j with
      | zero => simp [addVec]
      | succ j => simpa [addVec] using ih ys (by simpa using h) j

theorem sum_addVec : ∀ (a b : List ℚ), a.length = b.length →
    (addVec a b).sum = a.sum + b.sum := by
  intro a
  induction a with
  | nil =>
    intro b h
    cases b with
    | nil => simp [addVec]
    | cons y ys => simp at h
  | cons x xs ih =>
    intro b h
    cases b with
    | nil => simp at h
    | cons y ys =>
      have := ih ys (by simpa using h)
      simp only [addVec, List.zipWith_cons_cons, List.sum_cons] at *
      rw [this]
      ring

theorem foldl_addVec_length : ∀ (l : List (List ℚ)) (init : List ℚ),
    (∀ v ∈ l, v.length = init.length) → (l.foldl addVec init).length = init.length := by
  intro l
  induction l with
  | nil => intro init _; rfl
  | cons v vs ih =>
    intro init h
    have hv : v.length = init.length := h v (by simp)
    have h1 : (addVec init v).length = init.length := by
      rw [length_addVec, hv, min_self]
    rw [List.foldl_cons,
      ih (addVec init v) (fun u hu => by rw [h1]; exact h u (by simp [hu]))]
    exact h1

theorem foldl_addVec_sum : ∀ (l : List (List ℚ)) (init : List ℚ),
    (∀ v ∈ l, v.length = init.length) →
    (l.foldl addVec init).sum = init.sum + (l.map List.sum).sum := by
  intro l
  induction l with
  | nil => intro init _; simp
  | cons v vs ih =>
    intro init h
    have hv : v.length = init.length := h v (by simp)
    have h1 : (addVec init v).length = init.length := by
      rw [length_addVec, hv, min_self]
    rw [List.foldl_cons,
      ih (addVec init v) (fun u hu => by rw [h1]; exact h u (by simp [hu])),
      sum_addVec init v hv.symm]
    simp
    ring

theorem foldl_addVec_getD : ∀ (l : List (List ℚ)) (init : List ℚ),
    (∀ v ∈ l, v.length = init.length) → ∀ (j : ℕ),
    (l.foldl addVec init).getD j 0 = init.getD j 0 + (l.map (fun v => v.getD j 0)).sum := by
  intro l
  induction l with
  | nil => intro init _ j; simp
  | cons v vs ih =>
    intro init h j
    have hv : v.length = init.length := h v (by simp)
    have h1 : (addVec init v).length = init.length := by
      rw [length_addVec, hv, min_self]
    rw [List.foldl_cons,
      ih (addVec init v) (fun u hu => by rw [h1]; exact h u (by simp [hu])) j,
      getD_addVec init v hv.symm j]
    simp
    ring

/-! ### Sums over `List.range` -/

theorem sum_map_range (f : ℕ → ℚ) : ∀ (n : ℕ),
    ((List.range n).map f).sum = ∑ j ∈ Finset.range n, f j := by
  intro n
  induction n with
  | zero => simp
  | succ n ih =>
    rw [List.range_succ, List.map_append, List.sum_append, Finset.sum_range_succ, ih]
    simp

theorem map_range_getD {α : Type} (l : List α) (d : α) :
    (List.range l.length).map (fun i => l.getD i d) = l := by
  apply List.ext_getElem
  · simp
  · intro n h1 h2
    simp only [List.getElem_map, List.getElem_range]
    exact List.getD_eq_getElem l d h2

theorem getD_replicate_zero : ∀ (n j : ℕ), (List.replicate n (0 : ℚ)).getD j 0 = 0 := by
  intro n
  induction n with
  | zero => intro j; simp
  | succ n ih =>
    intro j
    cases j with
    | zero => simp [List.replicate_succ]
    | succ j => simpa [List.replicate_succ] using ih j

theorem sum_range_skip (g : ℕ → ℚ) : ∀ (n i : ℕ), i < n →
    (∑ j ∈ Finset.range n, if j = i then 0 else g (if j < i then j else j - 1))
      = ∑ k ∈ Finset.range (n - 1), g k := by
  intro n i hi
  rw [Finset.range_eq_Ico,
    ← Finset.sum_Ico_consecutive _ (Nat.zero_le i) (le_of_lt hi),
    Finset.sum_eq_sum_Ico_succ_bot hi]
  have e1 : ∀ j ∈ Finset.Ico 0 i,
      (if j = i then (0 : ℚ) else g (if j < i then j else j - 1)) = g j := by
    intro j hj
    simp only [Finset.mem_Ico] at hj
    have : j ≠ i := by omega
    simp [this, hj.2]
  have e2 : ∀ j ∈ Finset.Ico (i + 1) n,
      (if j = i then (0 : ℚ) else g (if j < i then j else j - 1)) = g (j - 1) := by
    intro j hj
    simp only [Finset.mem_Ico] at hj
    have h1 : j ≠ i := by omega
    have h2 : ¬ j < i := by omega
    simp [h1, h2]
  have key : ∑ j ∈ Finset.Ico (i + 1) n, g (j - 1) = ∑ j ∈ Finset.Ico i (n - 1), g j := by
    rw [Finset.sum_Ico_eq_sum_range, Finset.sum_Ico_eq_sum_range]
    have e : n - 1 - i = n - (i + 1) := by omega
    rw [e]
    apply Finset.sum_congr rfl
    intro k _
    congr 1
    omega
  have h0 : (if i = i then (0 : ℚ) else g (if i < i then i else i - 1)) = 0 := by simp
  rw [Finset.sum_congr rfl e1, Finset.sum_congr rfl e2, key, h0, zero_add,
    Finset.sum_Ico_consecutive _ (Nat.zero_le i) (by omega : i ≤ n - 1)]

/-! ### Bitmask lemmas -/

theorem shiftLeft_one_eq_pow (w : ℕ) : (1 <<< w) = 2 ^ w := by
  rw [Nat.shiftLeft_eq, one_mul]

theorem testBit_nextMask (m w : ℕ) (hw : w < 64) (hm : m < 2 ^ 64) (i : ℕ) :
    (nextMask m w).testBit i = (m.testBit i && !(i == w)) := by
  unfold nextMask
  rw [Nat.testBit_land, Nat.testBit_xor, Nat.testBit_two_pow_sub_one,
    shiftLeft_one_eq_pow, Nat.testBit_two_pow]
  by_cases hiw : i = w
  · subst hiw
    simp [hw]
  · by_cases hi : i < 64
    · have e1 : (i == w) = false := by simp [hiw]
      have e2 : decide (w = i) = false := decide_eq_false (fun h => hiw h.symm)
      simp [e1, e2, hi]
    · have hbit : m.testBit i = false :=
        Nat.testBit_eq_false_of_lt
          (lt_of_lt_of_le hm (Nat.pow_le_pow_right (by norm_num) (le_of_not_lt hi)))
      simp [hbit, hi]

theorem nextMask_lt_two_pow (m w n : ℕ) (hm : m < 2 ^ n) : nextMask m w < 2 ^ n := by
  unfold nextMask
  rw [Nat.land_comm]
  exact Nat.and_lt_two_pow _ hm

theorem mem_activeIndices (n m i : ℕ) :
    i ∈ activeIndices n m ↔ i < n ∧ m.testBit i = true := by
  simp [activeIndices, List.mem_filter, List.mem_range]

theorem nodup_activeIndices (n m : ℕ) : (activeIndices n m).Nodup :=
  List.Nodup.filter _ (List.nodup_range n)

theorem range_sixtyfour_split (n : ℕ) (hn : n ≤ 64) :
    List.range 64 = List.range n ++ List.range' n (64 - n) := by
  have h64 : (64 - n) + n = 64 := by omega
  rw [List.range_eq_range', List.range_eq_range', ← h64,
    ← List.range'_append 0 n (64 - n) 1]
  norm_num

theorem popCount64_eq_length_activeIndices (n m : ℕ) (hn : n ≤ 64) (hm : m < 2 ^ n) :
    popCount64 m = (activeIndices n m).length := by
  unfold popCount64 activeIndices
  rw [List.countP_eq_length_filter]
  congr 1
  rw [range_sixtyfour_split n hn, List.filter_append]
  have hnil : (List.range' n (64 - n)).filter (fun i => m.testBit i) = [] := by
    rw [List.filter_eq_nil_iff]
    intro a ha
    rw [List.mem_range'_1] at ha
    simp only [Bool.not_eq_true]
    exact Nat.testBit_eq_false_of_lt
      (lt_of_lt_of_le hm (Nat.pow_le_pow_right (by norm_num) ha.1))
  rw [hnil, List.append_nil]

theorem activeIndices_nextMask (n m w : ℕ) (hm : m < 2 ^ 64) (hw : w < 64) :
    activeIndices n (nextMask m w) = (activeIndices n m).filter (fun i => !(i == w)) := by
  unfold activeIndices
  rw [List.filter_filter]
  apply List.filter_congr
  intro x _
  rw [testBit_nextMask m w hw hm x, Bool.and_comm]

theorem popCount64_nextMask (m w : ℕ) (hm : m < 2 ^ 64) (hw : w < 64)
    (hbit : m.testBit w = true) :
    popCount64 (nextMask m w) = popCount64 m - 1 := by
  unfold popCount64
  rw [List.countP_eq_length_filter, List.countP_eq_length_filter]
  have hcongr : (List.range 64).filter (fun i => (nextMask m w).testBit i)
      = (List.range 64).filter (fun i => m.testBit i && !(i == w)) :=
    List.filter_congr (fun x _ => testBit_nextMask m w hw hm x)
  have hff : (List.range 64).filter (fun i => m.testBit i && !(i == w))
      = ((List.range 64).filter (fun i => m.testBit i)).filter (fun i => !(i == w)) := by
    rw [List.filter_filter]
    apply List.filter_congr
    intro x _
    rw [Bool.and_comm]
  have hnodup : ((List.range 64).filter (fun i => m.testBit i)).Nodup :=
    List.Nodup.filter _ (List.nodup_range 64)
  have hmem : w ∈ (List.range 64).filter (fun i => m.testBit i) := by
    rw [List.mem_filter, List.mem_range]
    exact ⟨hw, hbit⟩
  have herase : ((List.range 64).filter (fun i => m.testBit i)).erase w
      = ((List.range 64).filter (fun i => m.testBit i)).filter (fun i => !(i == w)) :=
    List.Nodup.erase_eq_filter hnodup w
  rw [hcongr, hff, ← herase, List.length_erase_of_mem hmem]

theorem popCount64_zero : popCount64 0 = 0 := by
  simp [popCount64, Nat.zero_testBit]

theorem popCount64_eq_zero_iff (m : ℕ) (hm : m < 2 ^ 64) : popCount64 m = 0 ↔ m = 0 := by
  constructor
  · intro h
    apply Nat.eq_of_testBit_eq
    intro i
    rw [Nat.zero_testBit]
    by_cases hi : i < 64
    · have hall := List.countP_eq_zero.mp h
      have := hall i (by rw [List.mem_range]; exact hi)
      simpa using this
    · exact Nat.testBit_eq_false_of_lt
        (lt_of_lt_of_le hm (Nat.pow_le_pow_right (by norm_num) (le_of_not_lt hi)))
  · intro h
    subst h
    exact popCount64_zero

theorem shiftRight_full_mask (n : ℕ) (hn : n ≤ 64) :
    (2 ^ 64 - 1) >>> (64 - n) = 2 ^ n - 1 := by
  rw [Nat.shiftRight_eq_div_pow]
  have ha : (0 : ℕ) < 2 ^ (64 - n) := Nat.pos_pow_of_pos _ (by norm_num)
  have hb : (0 : ℕ) < 2 ^ n := Nat.pos_pow_of_pos _ (by norm_num)
  have hsplit : 2 ^ 64 - 1 = (2 ^ (64 - n) - 1) + 2 ^ (64 - n) * (2 ^ n - 1) := by
    have h : (2 : ℕ) ^ 64 = 2 ^ (64 - n) * 2 ^ n := by
      rw [← pow_add]
      congr 1
      omega
    have h2 : 2 ^ (64 - n) * (2 ^ n - 1) = 2 ^ (64 - n) * 2 ^ n - 2 ^ (64 - n) := by
      rw [Nat.mul_sub, Nat.mul_one]
    have h3 : 2 ^ (64 - n) ≤ 2 ^ (64 - n) * 2 ^ n := Nat.le_mul_of_pos_right _ hb
    omega
  rw [hsplit, Nat.add_mul_div_left _ _ ha, Nat.div_eq_of_lt (by omega), zero_add]

theorem activeIndices_full_mask (n : ℕ) : activeIndices n (2 ^ n - 1) = List.range n := by
  unfold activeIndices
  rw [List.filter_eq_self]
  intro a ha
  rw [List.mem_range] at ha
  rw [Nat.testBit_two_pow_sub_one]
  exact decide_eq_true ha

theorem popCount64_full_mask (n : ℕ) (hn : n ≤ 64) : popCount64 (2 ^ n - 1) = n := by
  rw [popCount64_eq_length_activeIndices n _ hn
      (by have := Nat.pos_pow_of_pos n (by norm_num : 0 < 2); omega),
    activeIndices_full_mask, List.length_range]

theorem sub_total_stacks_pos (s : List ℚ) (m : ℕ) (hpos : ∀ q ∈ s, 0 < q)
    (hne : activeIndices s.length m ≠ []) : 0 < sub_total_stacks s m := by
  unfold sub_total_stacks
  apply List.sum_pos
  · intro x hx
    rw [List.mem_map] at hx
    obtain ⟨i, hi, rfl⟩ := hx
    rw [mem_activeIndices] at hi
    rw [List.getD_eq_getElem s 0 hi.1]
    exact hpos _ (List.getElem_mem _)
  · simpa using hne

/-! ### Shape of the exact solver's result -/

theorem length_winner_contrib (p s : List ℚ) (m idx i : ℕ) :
    (winner_contrib p s m idx i).length = popCount64 m := by
  rw [winner_contrib.eq_def]
  simp only []
  split
  · rw [length_addVec]
    simp
  · simp

theorem length_calculate_exact_recursive (p s : List ℚ) (m idx : ℕ) :
    (calculate_exact_recursive p s m idx).length = popCount64 m := by
  rw [calculate_exact_recursive.eq_def]
  simp only []
  split
  · simp
  · split
    · simp
    · rw [foldl_addVec_length]
      · simp
      · intro v hv
        rw [List.mem_map] at hv
        obtain ⟨i, _, rfl⟩ := hv
        rw [length_winner_contrib]
        simp

theorem calculate_exact_recursive_terminal (payouts all_stacks : List ℚ)
    (player_mask payout_idx : ℕ)
    (h : payouts.length ≤ payout_idx ∨ player_mask = 0
      ∨ sub_total_stacks all_stacks player_mask = 0) :
    calculate_exact_recursive payouts all_stacks player_mask payout_idx
      = List.replicate (popCount64 player_mask) 0 := by
  rw [calculate_exact_recursive.eq_def]
  simp only []
  split
  · rfl
  · rename_i h1
    push_neg at h1
    split
    · rfl
    · rename_i h2
      rcases h with h | h | h
      · omega
      · subst h
        rw [popCount64_zero] at h1
        omega
      · exact absurd h h2

/-- C6: if `payout_idx` is past the payout list, or the active-player mask is
empty, or the active players' total stack is zero, `calculate_exact_recursive`
returns the all-zero vector whose length is the number of set mask bits. -/
theorem C6_terminal_conditions (payouts all_stacks : List ℚ)
    (player_mask payout_idx : ℕ)
    (h : payouts.length ≤ payout_idx ∨ player_mask = 0
      ∨ sub_total_stacks all_stacks player_mask = 0) :
    calculate_exact_recursive payouts all_stacks player_mask payout_idx
      = List.replicate (popCount64 player_mask) 0 :=
  calculate_exact_recursive_terminal payouts all_stacks player_mask payout_idx h

/-- Witness for C6 at a concrete input: two active players whose stacks are
both zero (so the third terminal condition fires). -/
theorem C6_terminal_conditions_witness :
    sub_total_stacks [(0 : ℚ), 0] 3 = 0 ∧
      calculate_exact_recursive [(1 : ℚ)] [(0 : ℚ), 0] 3 0
        = List.replicate (popCount64 3) 0 := by
  have h : (List.range 2).filter (fun i => Nat.testBit 3 i) = [0, 1] := by decide
  have hsub : sub_total_stacks [(0 : ℚ), 0] 3 = 0 := by
    simp [sub_total_stacks, activeIndices, h]
  exact ⟨hsub,
    C6_terminal_conditions [(1 : ℚ)] [(0 : ℚ), 0] 3 0 (Or.inr (Or.inr hsub))⟩

/-- C9: the data of the termination argument of `calculate_exact_recursive`.
Each recursive call (made only when `payout_idx + 1 < payouts.length`) moves
to `payout_idx + 1`, strictly decreasing the measure
`payouts.length - payout_idx` that bounds the recursion depth by the payout
count, and removes exactly one set bit from the mask. (In this development
the function is accordingly defined by well-founded recursion on that
measure.) -/
theorem C9_termination_measure (player_mask winner_original_idx payout_idx : ℕ)
    (payouts : List ℚ)
    (hw : winner_original_idx < 64) (hm : player_mask < 2 ^ 64)
    (hbit : player_mask.testBit winner_original_idx = true)
    (hrec : payout_idx + 1 < payouts.length) :
    popCount64 (nextMask player_mask winner_original_idx)
        = popCount64 player_mask - 1
      ∧ payouts.length - (payout_idx + 1) < payouts.length - payout_idx :=
  ⟨popCount64_nextMask _ _ hm hw hbit, by omega⟩

/-- Witness for C9 at a concrete input: mask `0b11`, winner bit `0`, payout
index `0` of a two-payout list. -/
theorem C9_termination_measure_witness :
    popCount64 (nextMask 3 0) = popCount64 3 - 1
      ∧ List.length [(1 : ℚ), 2] - (0 + 1) < List.length [(1 : ℚ), 2] - 0 :=
  C9_termination_measure 3 0 0 [(1 : ℚ), 2] (by norm_num) (by norm_num) (by decide)
    (by norm_num)

/-! ### The orchestrator's cache behaviour -/

/-- C4: on a cache miss with an empty payout structure, `calculate` returns
`(0, 0)` (no solver or estimator output enters the result) and a `(0, 0)`
record is stored in the cache. -/
theorem C4_empty_payouts (c : ICMCalculator) (draws : ℕ → ℕ → ℕ → ℚ)
    (num_threads : ℕ) (cache : ℤ → Option ICMEquity) (stacks_a stacks_b : ℤ)
    (hmiss : cache (min stacks_a stacks_b) = none) (hempty : c.payouts = []) :
    (calculate c draws num_threads cache stacks_a stacks_b).1 = (0, 0)
      ∧ (calculate c draws num_threads cache stacks_a stacks_b).2 stacks_a
          = some ⟨0, 0⟩ := by
  unfold calculate
  simp [hmiss, hempty]

/-- Witness for C4 at a concrete input. -/
theorem C4_empty_payouts_witness :
    ((fun _ => none : ℤ → Option ICMEquity) (min 2 5) = none
        ∧ (ICMCalculator.mk [] [7]).payouts = [])
      ∧ (calculate ⟨[], [7]⟩ (fun _ _ _ => 0) 1 (fun _ => none) 2 5).1 = (0, 0)
      ∧ (calculate ⟨[], [7]⟩ (fun _ _ _ => 0) 1 (fun _ => none) 2 5).2 2 = some ⟨0, 0⟩ :=
  ⟨⟨rfl, rfl⟩, C4_empty_payouts ⟨[], [7]⟩ (fun _ _ _ => 0) 1 (fun _ => none) 2 5 rfl rfl⟩

/-- C5 counterexample: with an empty payout structure the source inserts at
key `stacks_a` (line 59), not at the canonical key `min(stacks_a, stacks_b)`.
Querying `(3, 1)` on an empty cache leaves the canonical key `1` absent and
stores the result under `3`, which is not the minimum of the pair. -/
theorem C5_canonical_key_counterexample :
    (calculate ⟨[], []⟩ (fun _ _ _ => 0) 1 (fun _ => none) 3 1).2 (min 3 1) = none
      ∧ (calculate ⟨[], []⟩ (fun _ _ _ => 0) 1 (fun _ => none) 3 1).2 3 = some ⟨0, 0⟩
      ∧ (3 : ℤ) ≠ min 3 1 := by
  refine ⟨?_, ?_, by decide⟩ <;> simp [calculate]

/-- C5 as amended: every insertion performed on the non-empty-payout path
uses the canonical key `min(stacks_a, stacks_b)` (and stores the re-oriented
short/deep pair), but the empty-payout path inserts at key `stacks_a`, which
coincides with the canonical key only when `stacks_a ≤ stacks_b`; all other
keys are left untouched. -/
theorem C5_cache_insertion_keys (c : ICMCalculator) (draws : ℕ → ℕ → ℕ → ℚ)
    (num_threads : ℕ) (cache : ℤ → Option ICMEquity) (stacks_a stacks_b : ℤ)
    (hmiss : cache (min stacks_a stacks_b) = none) :
    (c.payouts ≠ [] →
      (calculate c draws num_threads cache stacks_a stacks_b).2 (min stacks_a stacks_b)
          = some (if stacks_a ≤ stacks_b then
                ⟨(calculate c draws num_threads cache stacks_a stacks_b).1.1,
                 (calculate c draws num_threads cache stacks_a stacks_b).1.2⟩
              else
                ⟨(calculate c draws num_threads cache stacks_a stacks_b).1.2,
                 (calculate c draws num_threads cache stacks_a stacks_b).1.1⟩)
        ∧ ∀ k, k ≠ min stacks_a stacks_b →
            (calculate c draws num_threads cache stacks_a stacks_b).2 k = cache k)
    ∧ (c.payouts = [] →
      (calculate c draws num_threads cache stacks_a stacks_b).2 stacks_a = some ⟨0, 0⟩
        ∧ ∀ k, k ≠ stacks_a →
            (calculate c draws num_threads cache stacks_a stacks_b).2 k = cache k) := by
  constructor
  · intro hne
    unfold calculate
    simp only [hmiss]
    refine ⟨by simp [hne], ?_⟩
    intro k hk
    simp [hne, hk]
  · intro hempty
    unfold calculate
    simp only [hmiss]
    refine ⟨by simp [hempty], ?_⟩
    intro k hk
    simp [hempty, hk]

/-- Witness for C5's amended statement at a concrete input (non-empty
payouts, stacks `(3, 1)`): the insertion lands on the canonical key `1`. -/
theorem C5_cache_insertion_keys_witness :
    (fun _ => none : ℤ → Option ICMEquity) (min 3 1) = none
      ∧ (([(10 : ℚ)] : List ℚ) ≠ [] →
        (calculate ⟨[10], []⟩ (fun _ _ _ => 0) 1 (fun _ => none) 3 1).2 (min 3 1)
            = some (if (3 : ℤ) ≤ 1 then
                  ⟨(calculate ⟨[10], []⟩ (fun _ _ _ => 0) 1 (fun _ => none) 3 1).1.1,
                   (calculate ⟨[10], []⟩ (fun _ _ _ => 0) 1 (fun _ => none) 3 1).1.2⟩
                else
                  ⟨(calculate ⟨[10], []⟩ (fun _ _ _ => 0) 1 (fun _ => none) 3 1).1.2,
                   (calculate ⟨[10], []⟩ (fun _ _ _ => 0) 1 (fun _ => none) 3 1).1.1⟩)
          ∧ ∀ k, k ≠ min 3 1 →
              (calculate ⟨[10], []⟩ (fun _ _ _ => 0) 1 (fun _ => none) 3 1).2 k
                = (fun _ => none : ℤ → Option ICMEquity) k) :=
  ⟨rfl, fun hne =>
    (C5_cache_insertion_keys ⟨[10], []⟩ (fun _ _ _ => 0) 1 (fun _ => none) 3 1 rfl).1 hne⟩

/-- C8: within the exact-path thresholds, two sequential `calculate` calls
with identical stack arguments return identical result pairs (the second call
hits the cache entry the first call wrote, or both take the empty-payout
path), whatever the randomness parameters of either call. -/
theorem C8_determinism (c : ICMCalculator) (d1 d2 : ℕ → ℕ → ℕ → ℚ) (t1 t2 : ℕ)
    (cache : ℤ → Option ICMEquity) (sa sb : ℤ)
    (hp : c.payouts.length ≤ 16) (hn : c.other_players_stacks.length + 2 ≤ 64) :
    (calculate c d2 t2 (calculate c d1 t1 cache sa sb).2 sa sb).1
      = (calculate c d1 t1 cache sa sb).1 := by
  unfold calculate
  cases hcache : cache (min sa sb) with
  | some e =>
    by_cases hord : sa ≤ sb
    · have hc2 : cache sa = some e := by rwa [min_eq_left hord] at hcache
      simp [hord, hcache, hc2]
    · have hc2 : cache sb = some e := by rwa [min_eq_right (le_of_not_le hord)] at hcache
      simp [hord, hcache, hc2]
  | none =>
    by_cases hord : sa ≤ sb
    · have hc2 : cache sa = none := by rwa [min_eq_left hord] at hcache
      by_cases hemp : c.payouts = [] <;> simp [hord, hcache, hc2, hemp]
    · have hc2 : cache sb = none := by rwa [min_eq_right (le_of_not_le hord)] at hcache
      have hne : sb ≠ sa := by omega
      by_cases hemp : c.payouts = [] <;> simp [hord, hcache, hc2, hemp, hne]

/-! ### Lengths of the estimator's vectors, and dispatch -/

theorem length_foldl_set (l : List (ℕ × ℚ)) : ∀ (acc : List ℚ),
    (l.foldl (fun equities pp => equities.set pp.1 (equities.getD pp.1 0 + pp.2)) acc).length
      = acc.length := by
  induction l with
  | nil => intro acc; rfl
  | cons x xs ih => intro acc; rw [List.foldl_cons, ih, List.length_set]

theorem length_distributePayouts (payouts : List ℚ) (ranked : List ℕ) (n : ℕ) :
    (distributePayouts payouts ranked n).length = n := by
  unfold distributePayouts
  rw [length_foldl_set, List.length_replicate]

theorem length_foldl_zipWith {β : Type} (g : ℚ → ℚ → ℚ) (f : β → List ℚ) :
    ∀ (l : List β) (acc : List ℚ), (∀ t ∈ l, (f t).length = acc.length) →
    (l.foldl (fun a t => List.zipWith g a (f t)) acc).length = acc.length := by
  intro l
  induction l with
  | nil => intro acc _; rfl
  | cons x xs ih =>
    intro acc h
    have hx : (f x).length = acc.length := h x (by simp)
    have h1 : (List.zipWith g acc (f x)).length = acc.length := by
      rw [List.length_zipWith, hx, min_self]
    rw [List.foldl_cons, ih _ (fun u hu => by rw [h1]; exact h u (by simp [hu]))]
    exact h1

theorem length_calculate_estimate (payouts chip_stacks : List ℚ) (num_iters : ℕ)
    (draws : ℕ → ℕ → ℕ → ℚ) (num_threads : ℕ) :
    (calculate_estimate payouts chip_stacks num_iters draws num_threads).length
      = chip_stacks.length := by
  unfold calculate_estimate
  simp only [addVec]
  rw [length_foldl_zipWith]
  · rw [List.length_replicate]
  · intro t _
    rw [List.length_replicate, List.length_map, length_foldl_zipWith]
    · rw [List.length_replicate]
    · intro iter _
      rw [List.length_replicate, length_distributePayouts]

/-! ### Mass conservation of the exact solver -/

theorem activeIndices_ne_nil (n m : ℕ) (hm : m < 2 ^ n) (hm0 : m ≠ 0) :
    activeIndices n m ≠ [] := by
  intro hnil
  apply hm0
  apply Nat.eq_of_testBit_eq
  intro i
  rw [Nat.zero_testBit]
  by_cases hi : i < n
  · cases hb : m.testBit i with
    | false => rfl
    | true =>
      exfalso
      have hmem : i ∈ activeIndices n m := (mem_activeIndices n m i).mpr ⟨hi, hb⟩
      rw [hnil] at hmem
      simp at hmem
  · exact Nat.testBit_eq_false_of_lt
      (lt_of_lt_of_le hm (Nat.pow_le_pow_right (by norm_num) (le_of_not_lt hi)))

theorem nextMask_ne_zero_iff (m w : ℕ) (hm : m < 2 ^ 64) (hw : w < 64)
    (hbit : m.testBit w = true) :
    nextMask m w ≠ 0 ↔ 2 ≤ popCount64 m := by
  have h1 : popCount64 (nextMask m w) = popCount64 m - 1 :=
    popCount64_nextMask m w hm hw hbit
  have h2 := popCount64_eq_zero_iff (nextMask m w) (nextMask_lt_two_pow m w 64 hm)
  have h3 : popCount64 m ≠ 0 := by
    intro h
    have h4 := (popCount64_eq_zero_iff m hm).mp h
    subst h4
    rw [Nat.zero_testBit] at hbit
    exact Bool.false_ne_true hbit
  constructor
  · intro hne
    have h5 : popCount64 (nextMask m w) ≠ 0 := fun h => hne (h2.mp h)
    omega
  · intro h2n heq
    rw [heq, popCount64_zero] at h1
    omega

theorem sum_probs (s : List ℚ) (m : ℕ) (hn : s.length ≤ 64) (hm : m < 2 ^ s.length)
    (hsub : sub_total_stacks s m ≠ 0) :
    ∑ i ∈ Finset.range (popCount64 m),
        s.getD ((activeIndices s.length m).getD i 0) 0 / sub_total_stacks s m = 1 := by
  rw [← Finset.sum_div, div_eq_one_iff_eq hsub,
    popCount64_eq_length_activeIndices s.length m hn hm, ← sum_map_range]
  unfold sub_total_stacks
  conv_rhs => rw [← map_range_getD (activeIndices s.length m) 0, List.map_map]
  rfl

theorem sum_winner_contrib (p s : List ℚ) (m idx i : ℕ)
    (hn : s.length ≤ 64) (hm : m < 2 ^ s.length) (hi : i < popCount64 m) :
    (winner_contrib p s m idx i).sum
      = s.getD ((activeIndices s.length m).getD i 0) 0 / sub_total_stacks s m
          * p.getD idx 0
        + (if nextMask m ((activeIndices s.length m).getD i 0) ≠ 0 ∧ idx + 1 < p.length
           then s.getD ((activeIndices s.length m).getD i 0) 0 / sub_total_stacks s m
              * (calculate_exact_recursive p s
                  (nextMask m ((activeIndices s.length m).getD i 0)) (idx + 1)).sum
           else 0) := by
  have hlenA : popCount64 m = (activeIndices s.length m).length :=
    popCount64_eq_length_activeIndices s.length m hn hm
  have hm64 : m < 2 ^ 64 := lt_of_lt_of_le hm (Nat.pow_le_pow_right (by norm_num) hn)
  have hiA : i < (activeIndices s.length m).length := by omega
  have hwmem : (activeIndices s.length m).getD i 0 ∈ activeIndices s.length m := by
    rw [List.getD_eq_getElem _ 0 hiA]
    exact List.getElem_mem _
  have hwlt : (activeIndices s.length m).getD i 0 < 64 := by
    have := (mem_activeIndices _ _ _).mp hwmem
    omega
  have hbit : m.testBit ((activeIndices s.length m).getD i 0) = true :=
    ((mem_activeIndices _ _ _).mp hwmem).2
  have hsublen : (calculate_exact_recursive p s
      (nextMask m ((activeIndices s.length m).getD i 0)) (idx + 1)).length
        = popCount64 m - 1 := by
    rw [length_calculate_exact_recursive, popCount64_nextMask _ _ hm64 hwlt hbit]
  have hsum_sub : ∀ v : List ℚ, v.length = popCount64 m - 1 →
      ∑ k ∈ Finset.range (popCount64 m - 1), v.getD k 0 = v.sum := by
    intro v hv
    conv_rhs => rw [← map_range_getD v 0]
    rw [sum_map_range, hv]
  rw [winner_contrib.eq_def]
  simp only []
  split
  · have hskip := sum_range_skip
      (fun k => s.getD ((activeIndices s.length m).getD i 0) 0 / sub_total_stacks s m
        * (calculate_exact_recursive p s
            (nextMask m ((activeIndices s.length m).getD i 0)) (idx + 1)).getD k 0)
      (popCount64 m) i hi
    simp only [] at hskip
    rw [sum_addVec _ _ (by simp), sum_map_range, sum_map_range,
      Finset.sum_ite_eq' (Finset.range (popCount64 m)) i,
      if_pos (Finset.mem_range.mpr hi), hskip, ← Finset.mul_sum]
    congr 1
    congr 1
    exact hsum_sub _ hsublen
  · rw [sum_map_range,
      Finset.sum_ite_eq' (Finset.range (popCount64 m)) i,
      if_pos (Finset.mem_range.mpr hi), add_zero]

theorem sum_calculate_exact_recursive_aux (p s : List ℚ) (hn : s.length ≤ 64)
    (hpos : ∀ q ∈ s, 0 < q) :
    ∀ (fuel idx m : ℕ), p.length - idx ≤ fuel → m < 2 ^ s.length →
    (calculate_exact_recursive p s m idx).sum
      = ((p.drop idx).take (popCount64 m)).sum := by
  intro fuel
  induction fuel with
  | zero =>
    intro idx m hfuel hm
    have hterm : p.length ≤ idx := by omega
    rw [calculate_exact_recursive_terminal p s m idx (Or.inl hterm), List.drop_eq_nil_of_le hterm]
    simp
  | succ fuel ih =>
    intro idx m hfuel hm
    by_cases hterm : p.length ≤ idx
    · rw [calculate_exact_recursive_terminal p s m idx (Or.inl hterm), List.drop_eq_nil_of_le hterm]
      simp
    by_cases hm0 : m = 0
    · subst hm0
      rw [calculate_exact_recursive_terminal p s 0 idx (Or.inr (Or.inl rfl)), popCount64_zero]
      simp
    push_neg at hterm
    have hm64 : m < 2 ^ 64 := lt_of_lt_of_le hm (Nat.pow_le_pow_right (by norm_num) hn)
    have hlenA : popCount64 m = (activeIndices s.length m).length :=
      popCount64_eq_length_activeIndices s.length m hn hm
    have hAne : activeIndices s.length m ≠ [] := activeIndices_ne_nil s.length m hm hm0
    have hsubpos : 0 < sub_total_stacks s m := sub_total_stacks_pos s m hpos hAne
    have hnpos : 0 < popCount64 m := by
      rw [hlenA]
      exact List.length_pos.mpr hAne
    have hwfacts : ∀ i, i < popCount64 m →
        (activeIndices s.length m).getD i 0 < 64
          ∧ m.testBit ((activeIndices s.length m).getD i 0) = true := by
      intro i hi
      have hiA : i < (activeIndices s.length m).length := by omega
      have hwmem : (activeIndices s.length m).getD i 0 ∈ activeIndices s.length m := by
        rw [List.getD_eq_getElem _ 0 hiA]
        exact List.getElem_mem _
      have h5 := (mem_activeIndices _ _ _).mp hwmem
      exact ⟨by omega, h5.2⟩
    rw [calculate_exact_recursive.eq_def]
    simp only []
    rw [dif_neg (by push_neg; exact ⟨by omega, by omega⟩), if_neg (ne_of_gt hsubpos),
      foldl_addVec_sum _ _ ?hlens]
    case hlens =>
      intro v hv
      rw [List.mem_map] at hv
      obtain ⟨j, _, rfl⟩ := hv
      rw [length_winner_contrib, List.length_replicate]
    rw [List.map_map, List.sum_replicate, smul_zero, zero_add]
    have hcomp : (List.range (popCount64 m)).map
          (List.sum ∘ winner_contrib p s m idx)
        = (List.range (popCount64 m)).map (fun i => (winner_contrib p s m idx i).sum) := rfl
    rw [hcomp, sum_map_range]
    have hsummand : ∀ i ∈ Finset.range (popCount64 m),
        (winner_contrib p s m idx i).sum
          = s.getD ((activeIndices s.length m).getD i 0) 0 / sub_total_stacks s m
              * p.getD idx 0
            + (if 2 ≤ popCount64 m ∧ idx + 1 < p.length
               then s.getD ((activeIndices s.length m).getD i 0) 0 / sub_total_stacks s m
                  * ((p.drop (idx + 1)).take (popCount64 m - 1)).sum
               else 0) := by
      intro i hi
      rw [Finset.mem_range] at hi
      obtain ⟨hwlt, hbit⟩ := hwfacts i hi
      rw [sum_winner_contrib p s m idx i hn hm hi]
      congr 1
      have hiff : (nextMask m ((activeIndices s.length m).getD i 0) ≠ 0 ∧ idx + 1 < p.length)
          ↔ (2 ≤ popCount64 m ∧ idx + 1 < p.length) := by
        rw [nextMask_ne_zero_iff _ _ hm64 hwlt hbit]
      by_cases hc : 2 ≤ popCount64 m ∧ idx + 1 < p.length
      · rw [if_pos hc, if_pos (hiff.mpr hc)]
        congr 1
        rw [ih (idx + 1) (nextMask m ((activeIndices s.length m).getD i 0))
            (by omega) (nextMask_lt_two_pow _ _ _ hm),
          popCount64_nextMask _ _ hm64 hwlt hbit]
      · rw [if_neg hc, if_neg (fun h => hc (hiff.mp h))]
    rw [Finset.sum_congr rfl hsummand, Finset.sum_add_distrib, ← Finset.sum_mul,
      sum_probs s m hn hm (ne_of_gt hsubpos), one_mul]
    by_cases hc : 2 ≤ popCount64 m ∧ idx + 1 < p.length
    · have hite : ∀ i ∈ Finset.range (popCount64 m),
          (if 2 ≤ popCount64 m ∧ idx + 1 < p.length
           then s.getD ((activeIndices s.length m).getD i 0) 0 / sub_total_stacks s m
              * ((p.drop (idx + 1)).take (popCount64 m - 1)).sum
           else 0)
          = s.getD ((activeIndices s.length m).getD i 0) 0 / sub_total_stacks s m
              * ((p.drop (idx + 1)).take (popCount64 m - 1)).sum := by
        intro i _
        rw [if_pos hc]
      rw [Finset.sum_congr rfl hite, ← Finset.sum_mul,
        sum_probs s m hn hm (ne_of_gt hsubpos), one_mul]
      conv_rhs =>
        rw [List.drop_eq_getElem_cons hterm,
          show popCount64 m = (popCount64 m - 1) + 1 by omega,
          List.take_succ_cons]
      rw [List.sum_cons, List.getD_eq_getElem p 0 hterm]
    · have hite : ∀ i ∈ Finset.range (popCount64 m),
          (if 2 ≤ popCount64 m ∧ idx + 1 < p.length
           then s.getD ((activeIndices s.length m).getD i 0) 0 / sub_total_stacks s m
              * ((p.drop (idx + 1)).take (popCount64 m - 1)).sum
           else 0) = 0 := by
        intro i _
        rw [if_neg hc]
      rw [Finset.sum_congr rfl hite, Finset.sum_const, smul_zero, add_zero,
        List.getD_eq_getElem p 0 hterm]
      rcases (by omega : popCount64 m = 1 ∨ p.length ≤ idx + 1) with h1 | h1
      · conv_rhs =>
          rw [h1, List.drop_eq_getElem_cons hterm,
            show (1 : ℕ) = 0 + 1 from rfl, List.take_succ_cons, List.take_zero]
        rw [List.sum_cons, List.sum_nil, add_zero]
      · have hnil : p.drop (idx + 1) = [] := List.drop_eq_nil_of_le h1
        have hdrop : p.drop idx = [p[idx]] := by
          rw [List.drop_eq_getElem_cons hterm, hnil]
        conv_rhs =>
          rw [hdrop, List.take_of_length_le (by simp; omega)]
        rw [List.sum_cons, List.sum_nil, add_zero]

/-- C1: mass conservation of the exact solver. For every reached
`(player_mask, payout_idx)` pair (any mask over the stack positions, all
stacks positive so that no probability mass is lost to the zero-total-stack
cutoff), the equity vector returned by `calculate_exact_recursive` sums to
the payouts from `payout_idx` on, restricted to the positions reachable by
the active players, i.e. to the first `popCount64 player_mask` of them; when
at least as many active players as remaining payouts exist (in particular
for the full mask with `payouts ≤ players`), that is the whole remaining
payout mass. -/
theorem C1_mass_conservation (payouts all_stacks : List ℚ)
    (player_mask payout_idx : ℕ)
    (hn : all_stacks.length ≤ 64) (hpos : ∀ q ∈ all_stacks, 0 < q)
    (hm : player_mask < 2 ^ all_stacks.length) :
    (calculate_exact_recursive payouts all_stacks player_mask payout_idx).sum
      = ((payouts.drop payout_idx).take (popCount64 player_mask)).sum :=
  sum_calculate_exact_recursive_aux payouts all_stacks hn hpos
    (payouts.length - payout_idx) payout_idx player_mask (le_refl _) hm

/-- Witness for C1 at a concrete input: stacks `[1, 3]`, payouts `[10, 5]`,
full mask, position 0; both sides evaluate to `15`. -/
theorem C1_mass_conservation_witness :
    (List.length [(1 : ℚ), 3] ≤ 64 ∧ (∀ q ∈ [(1 : ℚ), 3], 0 < q) ∧ 3 < 2 ^ 2)
    ∧ (calculate_exact_recursive [(10 : ℚ), 5] [(1 : ℚ), 3] 3 0).sum
        = ((List.drop 0 [(10 : ℚ), 5]).take (popCount64 3)).sum := by
  have hpos : ∀ q ∈ [(1 : ℚ), 3], 0 < q := by
    intro q hq
    simp only [List.mem_cons, List.mem_singleton] at hq
    rcases hq with h | h | h
    · rw [h]; norm_num
    · rw [h]; norm_num
    · simp at h
  refine ⟨⟨by norm_num, hpos, by norm_num⟩, ?_⟩
  exact C1_mass_conservation [(10 : ℚ), 5] [(1 : ℚ), 3] 3 0 (by norm_num) hpos (by norm_num)

/-! ### Symmetry of the exact solver in the two distinguished players -/

theorem length_swapFirstTwo (v : List ℚ) : (swapFirstTwo v).length = v.length := by
  match v with
  | [] => rfl
  | [x] => rfl
  | x :: y :: t => rfl

theorem getD_swapFirstTwo (v : List ℚ) (hv : 2 ≤ v.length) (j : ℕ) (d : ℚ) :
    (swapFirstTwo v).getD j d = v.getD (tau j) d := by
  match v with
  | [] => simp at hv
  | [x] => simp at hv
  | x :: y :: t =>
    match j with
    | 0 => rfl
    | 1 => rfl
    | j + 2 => simp [swapFirstTwo, tau, List.getD_cons_succ]

theorem swapFirstTwo_replicate (n : ℕ) :
    swapFirstTwo (List.replicate n (0 : ℚ)) = List.replicate n 0 := by
  match n with
  | 0 => rfl
  | 1 => rfl
  | n + 2 => rfl

theorem tau_lt (n x : ℕ) (hn : 2 ≤ n) (hx : x < n) : tau x < n := by
  simp only [tau]
  split_ifs <;> omega

theorem tau_tau (x : ℕ) : tau (tau x) = x := by
  rcases Nat.lt_or_ge x 2 with h | h
  · interval_cases x <;> rfl
  · have h0 : x ≠ 0 := by omega
    have h1 : x ≠ 1 := by omega
    simp [tau, h0, h1]

theorem tau_eq_iff (x y : ℕ) : tau x = tau y ↔ x = y := by
  constructor
  · intro h
    have := congrArg tau h
    rwa [tau_tau, tau_tau] at this
  · intro h
    rw [h]

theorem getD_swap_stacks (a b : ℚ) (rest : List ℚ) (w : ℕ) (hw : 2 ≤ w) :
    (b :: a :: rest).getD w 0 = (a :: b :: rest).getD w 0 := by
  obtain ⟨k, rfl⟩ : ∃ k, w = k + 2 := ⟨w - 2, by omega⟩
  simp [List.getD_cons_succ]

theorem activeIndices_decomp (n m : ℕ) (hn : 2 ≤ n) :
    activeIndices n m
      = ((if m.testBit 0 then [0] else []) ++ (if m.testBit 1 then [1] else []))
        ++ (List.range' 2 (n - 2)).filter (fun i => m.testBit i) := by
  unfold activeIndices
  have h2 : (n - 2) + 2 = n := by omega
  have hsplit : List.range n = [0, 1] ++ List.range' 2 (n - 2) := by
    rw [List.range_eq_range', ← h2, ← List.range'_append 0 2 (n - 2) 1]
    norm_num
    rfl
  rw [hsplit, List.filter_append]
  congr 1
  cases hb0 : m.testBit 0 <;> cases hb1 : m.testBit 1 <;>
    simp [List.filter_cons, hb0, hb1]

theorem filter_testBit_tail_congr (n m mm : ℕ)
    (hrest : ∀ i, 2 ≤ i → mm.testBit i = m.testBit i) :
    (List.range' 2 (n - 2)).filter (fun i => mm.testBit i)
      = (List.range' 2 (n - 2)).filter (fun i => m.testBit i) :=
  List.filter_congr (fun x hx => by
    rw [List.mem_range'_1] at hx
    exact hrest x hx.1)

theorem sub_total_stacks_swap (a b : ℚ) (rest : List ℚ) (m mm : ℕ)
    (h0 : mm.testBit 0 = m.testBit 1) (h1 : mm.testBit 1 = m.testBit 0)
    (hrest : ∀ i, 2 ≤ i → mm.testBit i = m.testBit i) :
    sub_total_stacks (b :: a :: rest) mm = sub_total_stacks (a :: b :: rest) m := by
  unfold sub_total_stacks
  have hlen : (b :: a :: rest).length = (a :: b :: rest).length := by simp
  have hn2 : 2 ≤ (a :: b :: rest).length := by
    simp only [List.length_cons]
    omega
  rw [hlen, activeIndices_decomp _ mm hn2, activeIndices_decomp _ m hn2,
    h0, h1, filter_testBit_tail_congr _ m mm hrest,
    List.map_append, List.map_append, List.map_append, List.map_append,
    List.sum_append, List.sum_append, List.sum_append, List.sum_append]
  have htail : (((List.range' 2 ((a :: b :: rest).length - 2)).filter
          (fun i => m.testBit i)).map (fun w => (b :: a :: rest).getD w 0)).sum
      = (((List.range' 2 ((a :: b :: rest).length - 2)).filter
          (fun i => m.testBit i)).map (fun w => (a :: b :: rest).getD w 0)).sum := by
    congr 1
    apply List.map_congr_left
    intro w hw
    rw [List.mem_filter, List.mem_range'_1] at hw
    exact getD_swap_stacks a b rest w hw.1.1
  rw [htail]
  congr 1
  cases hb0 : m.testBit 0 <;> cases hb1 : m.testBit 1 <;>
    simp [List.getD_cons_zero, List.getD_cons_succ] <;> ring

theorem popCount64_swap (m mm n : ℕ) (hn2 : 2 ≤ n) (hn64 : n ≤ 64)
    (hm : m < 2 ^ n) (hmm : mm < 2 ^ n)
    (h0 : mm.testBit 0 = m.testBit 1) (h1 : mm.testBit 1 = m.testBit 0)
    (hrest : ∀ i, 2 ≤ i → mm.testBit i = m.testBit i) :
    popCount64 mm = popCount64 m := by
  rw [popCount64_eq_length_activeIndices n mm hn64 hmm,
    popCount64_eq_length_activeIndices n m hn64 hm,
    activeIndices_decomp n mm hn2, activeIndices_decomp n m hn2, h0, h1,
    filter_testBit_tail_congr n m mm hrest]
  simp only [List.length_append]
  cases hb0 : m.testBit 0 <;> cases hb1 : m.testBit 1 <;> simp

theorem getD_map_range (f : ℕ → ℚ) (n j : ℕ) (hj : j < n) :
    ((List.range n).map f).getD j 0 = f j := by
  rw [List.getD_eq_getElem _ _ (by simpa using hj)]
  simp

/-- Entrywise description of `winner_contrib`: the direct term lands on the
winner's own position, and the distributed term on every other position with
the winner-skipping index adjustment. -/
theorem getD_winner_contrib (p s : List ℚ) (m idx i j : ℕ)
    (hj : j < popCount64 m) :
    (winner_contrib p s m idx i).getD j 0
      = (if j = i
         then s.getD ((activeIndices s.length m).getD i 0) 0 / sub_total_stacks s m
            * p.getD idx 0
         else 0)
        + (if nextMask m ((activeIndices s.length m).getD i 0) ≠ 0 ∧ idx + 1 < p.length
           then (if j = i then 0
             else s.getD ((activeIndices s.length m).getD i 0) 0 / sub_total_stacks s m
               * (calculate_exact_recursive p s
                   (nextMask m ((activeIndices s.length m).getD i 0)) (idx + 1)).getD
                   (if j < i then j else j - 1) 0)
           else 0) := by
  rw [winner_contrib.eq_def]
  simp only []
  split
  · rw [getD_addVec _ _ (by simp), getD_map_range _ _ _ hj, getD_map_range _ _ _ hj]
  · rw [getD_map_range _ _ _ hj, add_zero]

/-- Entrywise description of the exact solver on the non-terminal branch: a
position's equity is the sum of the contributions of all candidate winners. -/
theorem getD_calculate_exact_recursive (p s : List ℚ) (m idx j : ℕ)
    (h1 : ¬(p.length ≤ idx ∨ popCount64 m = 0))
    (h2 : ¬ sub_total_stacks s m = 0) :
    (calculate_exact_recursive p s m idx).getD j 0
      = ((List.range (popCount64 m)).map
          (fun i => (winner_contrib p s m idx i).getD j 0)).sum := by
  rw [calculate_exact_recursive.eq_def]
  simp only []
  rw [dif_neg h1, if_neg h2, foldl_addVec_getD _ _ ?hl j, getD_replicate_zero,
    zero_add, List.map_map]
  case hl =>
    intro v hv
    rw [List.mem_map] at hv
    obtain ⟨i, _, rfl⟩ := hv
    rw [length_winner_contrib, List.length_replicate]
  rfl

/-- Clearing corresponding bits preserves the 0-1-swap relation between two
masks. -/
theorem nextMask_rel (m mm w : ℕ) (hw : w < 64) (hm : m < 2 ^ 64) (hmm : mm < 2 ^ 64)
    (h0 : mm.testBit 0 = m.testBit 1) (h1 : mm.testBit 1 = m.testBit 0)
    (hrest : ∀ i, 2 ≤ i → mm.testBit i = m.testBit i) :
    (nextMask mm (tau w)).testBit 0 = (nextMask m w).testBit 1
    ∧ (nextMask mm (tau w)).testBit 1 = (nextMask m w).testBit 0
    ∧ (∀ i, 2 ≤ i → (nextMask mm (tau w)).testBit i = (nextMask m w).testBit i) := by
  have htau : tau w < 64 := by
    simp only [tau]
    split_ifs <;> omega
  by_cases hw0 : w = 0
  · subst hw0
    refine ⟨?_, ?_, ?_⟩
    · rw [testBit_nextMask mm (tau 0) htau hmm 0, testBit_nextMask m 0 hw hm 1, h0]
      simp [tau]
    · rw [testBit_nextMask mm (tau 0) htau hmm 1, testBit_nextMask m 0 hw hm 0, h1]
      simp [tau]
    · intro i hi
      rw [testBit_nextMask mm (tau 0) htau hmm i, testBit_nextMask m 0 hw hm i,
        hrest i hi]
      have e1 : (i == tau 0) = false := by simp [tau]; omega
      have e2 : (i == 0) = false := by simp; omega
      rw [e1, e2]
  by_cases hw1 : w = 1
  · subst hw1
    refine ⟨?_, ?_, ?_⟩
    · rw [testBit_nextMask mm (tau 1) htau hmm 0, testBit_nextMask m 1 hw hm 1, h0]
      simp [tau]
    · rw [testBit_nextMask mm (tau 1) htau hmm 1, testBit_nextMask m 1 hw hm 0, h1]
      simp [tau]
    · intro i hi
      rw [testBit_nextMask mm (tau 1) htau hmm i, testBit_nextMask m 1 hw hm i,
        hrest i hi]
      have e1 : (i == tau 1) = false := by simp [tau]; omega
      have e2 : (i == 1) = false := by simp; omega
      rw [e1, e2]
  · have ht : tau w = w := by simp [tau, hw0, hw1]
    rw [ht]
    refine ⟨?_, ?_, ?_⟩
    · rw [testBit_nextMask mm w hw hmm 0, testBit_nextMask m w hw hm 1, h0]
      have e1 : (0 == w) = false := by simp; omega
      have e2 : (1 == w) = false := by simp; omega
      rw [e1, e2]
    · rw [testBit_nextMask mm w hw hmm 1, testBit_nextMask m w hw hm 0, h1]
      have e1 : (0 == w) = false := by simp; omega
      have e2 : (1 == w) = false := by simp; omega
      rw [e1, e2]
    · intro i hi
      rw [testBit_nextMask mm w hw hmm i, testBit_nextMask m w hw hm i, hrest i hi]

theorem sum_range_tau (F : ℕ → ℚ) (n : ℕ) (hn : 2 ≤ n) :
    ∑ i ∈ Finset.range n, F (tau i) = ∑ i ∈ Finset.range n, F i := by
  have happ : ∀ x : ℕ, (Equiv.swap (0 : ℕ) 1) x = tau x := by
    intro x
    rw [Equiv.swap_apply_def, tau]
  apply Finset.sum_equiv (Equiv.swap (0 : ℕ) 1)
  · intro i
    simp only [Finset.mem_range, happ]
    constructor
    · intro h
      exact tau_lt n i hn h
    · intro h
      have h2 := tau_lt n (tau i) hn h
      rwa [tau_tau] at h2
  · intro i _
    rw [happ]

theorem getD_filter_range'_ge_two (P : ℕ → Bool) (len k : ℕ)
    (hk : k < ((List.range' 2 len).filter P).length) :
    2 ≤ ((List.range' 2 len).filter P).getD k 0 := by
  rw [List.getD_eq_getElem _ _ hk]
  have hmem : ((List.range' 2 len).filter P)[k] ∈ (List.range' 2 len).filter P :=
    List.getElem_mem _
  rw [List.mem_filter, List.mem_range'_1] at hmem
  exact hmem.1.1

theorem tau_eq_self (x : ℕ) (hx : 2 ≤ x) : tau x = x := by
  have h0 : x ≠ 0 := by omega
  have h1 : x ≠ 1 := by omega
  simp [tau, h0, h1]

theorem adj_tau (i j : ℕ) (h2 : 2 ≤ i) (hij : j ≠ i) :
    tau (if j < i then j else j - 1) = (if tau j < i then tau j else tau j - 1) := by
  by_cases hj0 : j = 0
  · subst hj0
    rw [if_pos (by omega), show tau 0 = 1 from rfl, if_pos (by omega)]
  by_cases hj1 : j = 1
  · subst hj1
    rw [if_pos (by omega), show tau 1 = 0 from rfl, if_pos (by omega)]
  · have h2j : 2 ≤ j := by omega
    rw [tau_eq_self j h2j]
    by_cases hlt : j < i
    · rw [if_pos hlt]
      exact tau_eq_self j h2j
    · rw [if_neg hlt]
      exact tau_eq_self (j - 1) (by omega)

theorem adj_tau_small (i j : ℕ) (hi : i < 2) (hij : j ≠ i) :
    (if j < i then j else j - 1) = (if tau j < tau i then tau j else tau j - 1) := by
  interval_cases i
  · rw [show tau 0 = 1 from rfl, if_neg (by omega)]
    by_cases hj1 : j = 1
    · subst hj1
      rw [show tau 1 = 0 from rfl, if_pos (by omega)]
    · have h2j : 2 ≤ j := by omega
      rw [tau_eq_self j h2j, if_neg (by omega)]
  · rw [show tau 1 = 0 from rfl]
    by_cases hj0 : j = 0
    · subst hj0
      rw [if_pos (by omega), show tau 0 = 1 from rfl, if_neg (by omega)]
    · have h2j : 2 ≤ j := by omega
      rw [if_neg (by omega), tau_eq_self j h2j, if_neg (by omega)]

/-- Pointwise winner-contribution correspondence when both players 0 and 1
are active: the contribution of winner position `i` to position `j` computed
on the swapped stacks equals the contribution of winner position `tau i` to
position `tau j` on the original stacks. -/
theorem winner_contrib_swap_both (p : List ℚ) (a b : ℚ) (rest : List ℚ) (m idx : ℕ)
    (hn64 : rest.length + 2 ≤ 64) (hm : m < 2 ^ (rest.length + 2))
    (hb0 : m.testBit 0 = true) (hb1 : m.testBit 1 = true)
    (HIH : ∀ m2 mm2 : ℕ, m2 < 2 ^ (rest.length + 2) → mm2 < 2 ^ (rest.length + 2) →
      mm2.testBit 0 = m2.testBit 1 → mm2.testBit 1 = m2.testBit 0 →
      (∀ k, 2 ≤ k → mm2.testBit k = m2.testBit k) →
      calculate_exact_recursive p (b :: a :: rest) mm2 (idx + 1)
        = (if m2.testBit 0 = true ∧ m2.testBit 1 = true
           then swapFirstTwo (calculate_exact_recursive p (a :: b :: rest) m2 (idx + 1))
           else calculate_exact_recursive p (a :: b :: rest) m2 (idx + 1)))
    (i j : ℕ) (hi : i < popCount64 m) (hj : j < popCount64 m) :
    (winner_contrib p (b :: a :: rest) m idx i).getD j 0
      = (winner_contrib p (a :: b :: rest) m idx (tau i)).getD (tau j) 0 := by
  have hsl : (a :: b :: rest).length = rest.length + 2 := by
    simp only [List.length_cons]
  have hsl2 : (b :: a :: rest).length = rest.length + 2 := by
    simp only [List.length_cons]
  have hm64 : m < 2 ^ 64 := lt_of_lt_of_le hm (Nat.pow_le_pow_right (by norm_num) hn64)
  have hn2 : (2 : ℕ) ≤ rest.length + 2 := by omega
  have hA : activeIndices (rest.length + 2) m
      = 0 :: 1 :: (List.range' 2 rest.length).filter (fun k => m.testBit k) := by
    rw [activeIndices_decomp _ m hn2, hb0, hb1]
    simp
  have hlenA : popCount64 m = (activeIndices (rest.length + 2) m).length :=
    popCount64_eq_length_activeIndices _ m hn64 hm
  have hnact : popCount64 m
      = ((List.range' 2 rest.length).filter (fun k => m.testBit k)).length + 2 := by
    rw [hlenA, hA]
    simp
  have hnact2 : 2 ≤ popCount64 m := by omega
  have hpos0 : (activeIndices (rest.length + 2) m).getD 0 0 = 0 := by
    rw [hA]
    simp
  have hpos1 : (activeIndices (rest.length + 2) m).getD 1 0 = 1 := by
    rw [hA]
    simp
  have hposk : ∀ k, 2 ≤ k → k < popCount64 m →
      2 ≤ (activeIndices (rest.length + 2) m).getD k 0 := by
    intro k h2k hk
    obtain ⟨k2, rfl⟩ : ∃ k2, k = k2 + 2 := ⟨k - 2, by omega⟩
    rw [hA, show k2 + 2 = (k2 + 1) + 1 from rfl, List.getD_cons_succ,
      List.getD_cons_succ]
    exact getD_filter_range'_ge_two _ _ _ (by omega)
  have htauA : ∀ k, k < popCount64 m →
      (activeIndices (rest.length + 2) m).getD (tau k) 0
        = tau ((activeIndices (rest.length + 2) m).getD k 0) := by
    intro k hk
    by_cases hk0 : k = 0
    · subst hk0
      rw [show tau 0 = 1 from rfl, hpos1, hpos0]
      rfl
    by_cases hk1 : k = 1
    · subst hk1
      rw [show tau 1 = 0 from rfl, hpos0, hpos1]
      rfl
    · have h2k : 2 ≤ k := by omega
      rw [tau_eq_self k h2k, tau_eq_self _ (hposk k h2k hk)]
  have hstack : ∀ k, k < popCount64 m →
      (b :: a :: rest).getD ((activeIndices (rest.length + 2) m).getD k 0) 0
        = (a :: b :: rest).getD (tau ((activeIndices (rest.length + 2) m).getD k 0)) 0 := by
    intro k hk
    by_cases hk0 : k = 0
    · subst hk0
      rw [hpos0]
      rfl
    by_cases hk1 : k = 1
    · subst hk1
      rw [hpos1]
      rfl
    · have h2k : 2 ≤ k := by omega
      have hge := hposk k h2k hk
      rw [tau_eq_self _ hge]
      exact getD_swap_stacks a b rest _ hge
  have hT : sub_total_stacks (b :: a :: rest) m = sub_total_stacks (a :: b :: rest) m :=
    sub_total_stacks_swap a b rest m m (by rw [hb0, hb1]) (by rw [hb1, hb0])
      (fun _ _ => rfl)
  have hwfact : ∀ k, k < popCount64 m →
      (activeIndices (rest.length + 2) m).getD k 0 < rest.length + 2
        ∧ m.testBit ((activeIndices (rest.length + 2) m).getD k 0) = true := by
    intro k hk
    have hkA : k < (activeIndices (rest.length + 2) m).length := by omega
    have hmem : (activeIndices (rest.length + 2) m).getD k 0
        ∈ activeIndices (rest.length + 2) m := by
      rw [List.getD_eq_getElem _ 0 hkA]
      exact List.getElem_mem _
    exact (mem_activeIndices _ _ _).mp hmem
  obtain ⟨hwlt, hwbit⟩ := hwfact i hi
  have hw64 : (activeIndices (rest.length + 2) m).getD i 0 < 64 := by omega
  have htw64 : tau ((activeIndices (rest.length + 2) m).getD i 0) < 64 :=
    tau_lt 64 _ (by norm_num) hw64
  have hrel := nextMask_rel m m (tau ((activeIndices (rest.length + 2) m).getD i 0))
    htw64 hm64 hm64 (by rw [hb0, hb1]) (by rw [hb1, hb0]) (fun _ _ => rfl)
  rw [tau_tau] at hrel
  obtain ⟨hr0, hr1, hrr⟩ := hrel
  have hEq := HIH (nextMask m (tau ((activeIndices (rest.length + 2) m).getD i 0)))
    (nextMask m ((activeIndices (rest.length + 2) m).getD i 0))
    (nextMask_lt_two_pow _ _ _ hm) (nextMask_lt_two_pow _ _ _ hm) hr0 hr1 hrr
  have hpceq : popCount64 (nextMask m ((activeIndices (rest.length + 2) m).getD i 0))
      = popCount64 (nextMask m (tau ((activeIndices (rest.length + 2) m).getD i 0))) :=
    popCount64_swap (nextMask m (tau ((activeIndices (rest.length + 2) m).getD i 0)))
      (nextMask m ((activeIndices (rest.length + 2) m).getD i 0))
      (rest.length + 2) hn2 hn64
      (nextMask_lt_two_pow _ _ _ hm) (nextMask_lt_two_pow _ _ _ hm) hr0 hr1 hrr
  have hcond_iff : nextMask m ((activeIndices (rest.length + 2) m).getD i 0) = 0
      ↔ nextMask m (tau ((activeIndices (rest.length + 2) m).getD i 0)) = 0 := by
    rw [← popCount64_eq_zero_iff _ (nextMask_lt_two_pow _ _ 64 hm64),
      ← popCount64_eq_zero_iff _ (nextMask_lt_two_pow _ _ 64 hm64), hpceq]
  rw [getD_winner_contrib p (b :: a :: rest) m idx i j hj,
    getD_winner_contrib p (a :: b :: rest) m idx (tau i) (tau j)
      (tau_lt _ j hnact2 hj),
    hsl, hsl2, htauA i hi, ← hstack i hi, hT]
  simp only [tau_eq_iff]
  by_cases hi2 : 2 ≤ i
  · have hwge : 2 ≤ (activeIndices (rest.length + 2) m).getD i 0 := hposk i hi2 hi
    rw [tau_eq_self _ hwge] at hEq ⊢
    have hm2b0 : (nextMask m ((activeIndices (rest.length + 2) m).getD i 0)).testBit 0
        = true := by
      rw [testBit_nextMask _ _ hw64 hm64 0, hb0]
      have e : ((0 : ℕ) == (activeIndices (rest.length + 2) m).getD i 0) = false :=
        beq_eq_false_iff_ne.mpr (by omega)
      rw [e]
      rfl
    have hm2b1 : (nextMask m ((activeIndices (rest.length + 2) m).getD i 0)).testBit 1
        = true := by
      rw [testBit_nextMask _ _ hw64 hm64 1, hb1]
      have e : ((1 : ℕ) == (activeIndices (rest.length + 2) m).getD i 0) = false :=
        beq_eq_false_iff_ne.mpr (by omega)
      rw [e]
      rfl
    rw [if_pos ⟨hm2b0, hm2b1⟩] at hEq
    rw [hEq]
    have hElen : 2 ≤ (calculate_exact_recursive p (a :: b :: rest)
        (nextMask m ((activeIndices (rest.length + 2) m).getD i 0)) (idx + 1)).length := by
      rw [length_calculate_exact_recursive,
        popCount64_nextMask _ _ hm64 hw64 hwbit]
      omega
    rw [tau_eq_self i hi2]
    by_cases hji : j = i
    · simp [hji]
    · rw [if_neg hji, getD_swapFirstTwo _ hElen, adj_tau i j hi2 hji]
  · have hi2' : i < 2 := by omega
    have hm2nb : ¬((nextMask m (tau ((activeIndices (rest.length + 2) m).getD i 0))).testBit 0
          = true
        ∧ (nextMask m (tau ((activeIndices (rest.length + 2) m).getD i 0))).testBit 1
          = true) := by
      interval_cases i
      · rw [hpos0]
        intro hcc
        have h2 := hcc.2
        rw [testBit_nextMask _ _ (by decide) hm64 1] at h2
        simp [tau] at h2
      · rw [hpos1]
        intro hcc
        have h2 := hcc.1
        rw [testBit_nextMask _ _ (by decide) hm64 0] at h2
        simp [tau] at h2
    rw [if_neg hm2nb] at hEq
    rw [hEq]
    simp only [ne_eq, hcond_iff]
    by_cases hji : j = i
    · simp [hji]
    · rw [if_neg hji, adj_tau_small i j hi2' hji]

theorem getD_stacks_tau (a b : ℚ) (rest : List ℚ) (w : ℕ) :
    (b :: a :: rest).getD (tau w) 0 = (a :: b :: rest).getD w 0 := by
  by_cases h0 : w = 0
  · subst h0
    rfl
  by_cases h1 : w = 1
  · subst h1
    rfl
  · have h2 : 2 ≤ w := by omega
    rw [tau_eq_self w h2]
    exact getD_swap_stacks a b rest w h2

/-- Pointwise winner-contribution correspondence when players 0 and 1 are not
both active: winner position `i` contributes identically on the swapped
stacks with the bit-swapped mask and on the original stacks with the original
mask. -/
theorem winner_contrib_swap_other (p : List ℚ) (a b : ℚ) (rest : List ℚ)
    (m mm idx : ℕ)
    (hn64 : rest.length + 2 ≤ 64) (hm : m < 2 ^ (rest.length + 2))
    (hmm : mm < 2 ^ (rest.length + 2))
    (h0 : mm.testBit 0 = m.testBit 1) (h1 : mm.testBit 1 = m.testBit 0)
    (hrest : ∀ k, 2 ≤ k → mm.testBit k = m.testBit k)
    (hnot : ¬(m.testBit 0 = true ∧ m.testBit 1 = true))
    (HIH : ∀ m2 mm2 : ℕ, m2 < 2 ^ (rest.length + 2) → mm2 < 2 ^ (rest.length + 2) →
      mm2.testBit 0 = m2.testBit 1 → mm2.testBit 1 = m2.testBit 0 →
      (∀ k, 2 ≤ k → mm2.testBit k = m2.testBit k) →
      calculate_exact_recursive p (b :: a :: rest) mm2 (idx + 1)
        = (if m2.testBit 0 = true ∧ m2.testBit 1 = true
           then swapFirstTwo (calculate_exact_recursive p (a :: b :: rest) m2 (idx + 1))
           else calculate_exact_recursive p (a :: b :: rest) m2 (idx + 1)))
    (i j : ℕ) (hi : i < popCount64 m) (hj : j < popCount64 m) :
    (winner_contrib p (b :: a :: rest) mm idx i).getD j 0
      = (winner_contrib p (a :: b :: rest) m idx i).getD j 0 := by
  have hsl : (a :: b :: rest).length = rest.length + 2 := by
    simp only [List.length_cons]
  have hsl2 : (b :: a :: rest).length = rest.length + 2 := by
    simp only [List.length_cons]
  have hm64 : m < 2 ^ 64 := lt_of_lt_of_le hm (Nat.pow_le_pow_right (by norm_num) hn64)
  have hmm64 : mm < 2 ^ 64 := lt_of_lt_of_le hmm (Nat.pow_le_pow_right (by norm_num) hn64)
  have hn2 : (2 : ℕ) ≤ rest.length + 2 := by omega
  have hpc : popCount64 mm = popCount64 m :=
    popCount64_swap m mm _ hn2 hn64 hm hmm h0 h1 hrest
  have hT : sub_total_stacks (b :: a :: rest) mm = sub_total_stacks (a :: b :: rest) m :=
    sub_total_stacks_swap a b rest m mm h0 h1 hrest
  have hlenA : popCount64 m = (activeIndices (rest.length + 2) m).length :=
    popCount64_eq_length_activeIndices _ m hn64 hm
  have hL2 : (List.range' 2 (rest.length + 2 - 2)).filter (fun k => mm.testBit k)
      = (List.range' 2 (rest.length + 2 - 2)).filter (fun k => m.testBit k) :=
    filter_testBit_tail_congr (rest.length + 2) m mm hrest
  have hAA : ∀ k, k < popCount64 m →
      (activeIndices (rest.length + 2) mm).getD k 0
        = tau ((activeIndices (rest.length + 2) m).getD k 0) := by
    intro k hk
    have hdm := activeIndices_decomp (rest.length + 2) m hn2
    have hdmm := activeIndices_decomp (rest.length + 2) mm hn2
    rw [h0, h1, hL2] at hdmm
    cases hb0 : m.testBit 0 with
    | true =>
      cases hb1 : m.testBit 1 with
      | true => exact absurd ⟨hb0, hb1⟩ hnot
      | false =>
        rw [hb0, hb1] at hdm hdmm
        simp at hdm hdmm
        rw [hdm, hdmm]
        have hlen1 : popCount64 m
            = ((List.range' 2 rest.length).filter (fun k => m.testBit k)).length + 1 := by
          rw [hlenA, hdm]
          simp
        by_cases hk0 : k = 0
        · subst hk0
          rfl
        · obtain ⟨k1, rfl⟩ : ∃ k1, k = k1 + 1 := ⟨k - 1, by omega⟩
          rw [List.getD_cons_succ, List.getD_cons_succ]
          exact (tau_eq_self _ (getD_filter_range'_ge_two _ _ _ (by omega))).symm
    | false =>
      cases hb1 : m.testBit 1 with
      | true =>
        rw [hb0, hb1] at hdm hdmm
        simp at hdm hdmm
        rw [hdm, hdmm]
        have hlen1 : popCount64 m
            = ((List.range' 2 rest.length).filter (fun k => m.testBit k)).length + 1 := by
          rw [hlenA, hdm]
          simp
        by_cases hk0 : k = 0
        · subst hk0
          rfl
        · obtain ⟨k1, rfl⟩ : ∃ k1, k = k1 + 1 := ⟨k - 1, by omega⟩
          rw [List.getD_cons_succ, List.getD_cons_succ]
          exact (tau_eq_self _ (getD_filter_range'_ge_two _ _ _ (by omega))).symm
      | false =>
        rw [hb0, hb1] at hdm hdmm
        simp at hdm hdmm
        rw [hdm, hdmm]
        have hlen1 : popCount64 m
            = ((List.range' 2 rest.length).filter (fun k => m.testBit k)).length := by
          rw [hlenA, hdm]
        exact (tau_eq_self _ (getD_filter_range'_ge_two _ _ _ (by omega))).symm
  have hwfact : (activeIndices (rest.length + 2) m).getD i 0 < rest.length + 2
      ∧ m.testBit ((activeIndices (rest.length + 2) m).getD i 0) = true := by
    have hkA : i < (activeIndices (rest.length + 2) m).length := by omega
    have hmem : (activeIndices (rest.length + 2) m).getD i 0
        ∈ activeIndices (rest.length + 2) m := by
      rw [List.getD_eq_getElem _ 0 hkA]
      exact List.getElem_mem _
    exact (mem_activeIndices _ _ _).mp hmem
  obtain ⟨hwlt, hwbit⟩ := hwfact
  have hw64 : (activeIndices (rest.length + 2) m).getD i 0 < 64 := by omega
  obtain ⟨hr0, hr1, hrr⟩ := nextMask_rel m mm
    ((activeIndices (rest.length + 2) m).getD i 0) hw64 hm64 hmm64 h0 h1 hrest
  have hEq := HIH (nextMask m ((activeIndices (rest.length + 2) m).getD i 0))
    (nextMask mm (tau ((activeIndices (rest.length + 2) m).getD i 0)))
    (nextMask_lt_two_pow _ _ _ hm) (nextMask_lt_two_pow _ _ _ hmm) hr0 hr1 hrr
  have hm2nb : ¬((nextMask m ((activeIndices (rest.length + 2) m).getD i 0)).testBit 0
        = true
      ∧ (nextMask m ((activeIndices (rest.length + 2) m).getD i 0)).testBit 1
        = true) := by
    intro hcc
    apply hnot
    constructor
    · have hx := hcc.1
      rw [testBit_nextMask m _ hw64 hm64 0] at hx
      simp only [Bool.and_eq_true] at hx
      exact hx.1
    · have hx := hcc.2
      rw [testBit_nextMask m _ hw64 hm64 1] at hx
      simp only [Bool.and_eq_true] at hx
      exact hx.1
  rw [if_neg hm2nb] at hEq
  have hpceq : popCount64 (nextMask mm (tau ((activeIndices (rest.length + 2) m).getD i 0)))
      = popCount64 (nextMask m ((activeIndices (rest.length + 2) m).getD i 0)) :=
    popCount64_swap (nextMask m ((activeIndices (rest.length + 2) m).getD i 0))
      (nextMask mm (tau ((activeIndices (rest.length + 2) m).getD i 0)))
      (rest.length + 2) hn2 hn64
      (nextMask_lt_two_pow _ _ _ hm) (nextMask_lt_two_pow _ _ _ hmm) hr0 hr1 hrr
  have hcond_iff : nextMask mm (tau ((activeIndices (rest.length + 2) m).getD i 0)) = 0
      ↔ nextMask m ((activeIndices (rest.length + 2) m).getD i 0) = 0 := by
    rw [← popCount64_eq_zero_iff _ (nextMask_lt_two_pow _ _ 64 hmm64),
      ← popCount64_eq_zero_iff _ (nextMask_lt_two_pow _ _ 64 hm64), hpceq]
  rw [getD_winner_contrib p (b :: a :: rest) mm idx i j (by rw [hpc]; exact hj),
    getD_winner_contrib p (a :: b :: rest) m idx i j hj,
    hsl, hsl2, hAA i hi, getD_stacks_tau, hT, hEq]
  simp only [ne_eq, hcond_iff]

/-- Exchanging the two distinguished players' stacks (and, accordingly, bits
0 and 1 of the active mask) exchanges their equities and leaves every other
player's equity unchanged. -/
theorem calculate_exact_recursive_swap (p : List ℚ) (a b : ℚ) (rest : List ℚ) :
    ∀ (fuel idx m mm : ℕ),
    p.length - idx ≤ fuel →
    m < 2 ^ (rest.length + 2) → mm < 2 ^ (rest.length + 2) →
    rest.length + 2 ≤ 64 →
    mm.testBit 0 = m.testBit 1 → mm.testBit 1 = m.testBit 0 →
    (∀ k, 2 ≤ k → mm.testBit k = m.testBit k) →
    calculate_exact_recursive p (b :: a :: rest) mm idx
      = (if m.testBit 0 = true ∧ m.testBit 1 = true
         then swapFirstTwo (calculate_exact_recursive p (a :: b :: rest) m idx)
         else calculate_exact_recursive p (a :: b :: rest) m idx) := by
  intro fuel
  induction fuel with
  | zero =>
    intro idx m mm hfuel hm hmm hn64 h0 h1 hrest
    have hterm : p.length ≤ idx := by omega
    have hpc : popCount64 mm = popCount64 m :=
      popCount64_swap m mm _ (by omega) hn64 hm hmm h0 h1 hrest
    rw [calculate_exact_recursive_terminal p _ mm idx (Or.inl hterm),
      calculate_exact_recursive_terminal p _ m idx (Or.inl hterm), hpc]
    split
    · rw [swapFirstTwo_replicate]
    · rfl
  | succ fuel ih =>
    intro idx m mm hfuel hm hmm hn64 h0 h1 hrest
    have hn2 : (2 : ℕ) ≤ rest.length + 2 := by omega
    have hpc : popCount64 mm = popCount64 m :=
      popCount64_swap m mm _ hn2 hn64 hm hmm h0 h1 hrest
    have hm64 : m < 2 ^ 64 := lt_of_lt_of_le hm (Nat.pow_le_pow_right (by norm_num) hn64)
    have hmm64 : mm < 2 ^ 64 := lt_of_lt_of_le hmm (Nat.pow_le_pow_right (by norm_num) hn64)
    by_cases hterm : p.length ≤ idx
    · rw [calculate_exact_recursive_terminal p _ mm idx (Or.inl hterm),
        calculate_exact_recursive_terminal p _ m idx (Or.inl hterm), hpc]
      split
      · rw [swapFirstTwo_replicate]
      · rfl
    by_cases hpc0 : popCount64 m = 0
    · have hm0 : m = 0 := (popCount64_eq_zero_iff m hm64).mp hpc0
      have hmm0 : mm = 0 := (popCount64_eq_zero_iff mm hmm64).mp (by rw [hpc]; exact hpc0)
      rw [calculate_exact_recursive_terminal p _ mm idx (Or.inr (Or.inl hmm0)),
        calculate_exact_recursive_terminal p _ m idx (Or.inr (Or.inl hm0)), hpc]
      split
      · rw [swapFirstTwo_replicate]
      · rfl
    by_cases hsub : sub_total_stacks (a :: b :: rest) m = 0
    · have hsub2 : sub_total_stacks (b :: a :: rest) mm = 0 := by
        rw [sub_total_stacks_swap a b rest m mm h0 h1 hrest]
        exact hsub
      rw [calculate_exact_recursive_terminal p _ mm idx (Or.inr (Or.inr hsub2)),
        calculate_exact_recursive_terminal p _ m idx (Or.inr (Or.inr hsub)), hpc]
      split
      · rw [swapFirstTwo_replicate]
      · rfl
    push_neg at hterm
    have hsub2 : sub_total_stacks (b :: a :: rest) mm ≠ 0 := by
      rw [sub_total_stacks_swap a b rest m mm h0 h1 hrest]
      exact hsub
    have hnt : ¬(p.length ≤ idx ∨ popCount64 m = 0) := by
      push_neg
      exact ⟨hterm, hpc0⟩
    have hnt2 : ¬(p.length ≤ idx ∨ popCount64 mm = 0) := by
      rw [hpc]
      exact hnt
    have HIH : ∀ m2 mm2 : ℕ, m2 < 2 ^ (rest.length + 2) → mm2 < 2 ^ (rest.length + 2) →
        mm2.testBit 0 = m2.testBit 1 → mm2.testBit 1 = m2.testBit 0 →
        (∀ k, 2 ≤ k → mm2.testBit k = m2.testBit k) →
        calculate_exact_recursive p (b :: a :: rest) mm2 (idx + 1)
          = (if m2.testBit 0 = true ∧ m2.testBit 1 = true
             then swapFirstTwo (calculate_exact_recursive p (a :: b :: rest) m2 (idx + 1))
             else calculate_exact_recursive p (a :: b :: rest) m2 (idx + 1)) := by
      intro m2 mm2 h2 h3 h4 h5 h6
      exact ih (idx + 1) m2 mm2 (by omega) h2 h3 hn64 h4 h5 h6
    by_cases hbits : m.testBit 0 = true ∧ m.testBit 1 = true
    · rw [if_pos hbits]
      have hmmeq : mm = m := by
        apply Nat.eq_of_testBit_eq
        intro k
        by_cases hk0 : k = 0
        · subst hk0
          rw [h0, hbits.1, hbits.2]
        by_cases hk1 : k = 1
        · subst hk1
          rw [h1, hbits.1, hbits.2]
        · exact hrest k (by omega)
      rw [hmmeq]
      have hsub2m : sub_total_stacks (b :: a :: rest) m ≠ 0 := by
        rw [← hmmeq]
        exact hsub2
      have hA := activeIndices_decomp (rest.length + 2) m hn2
      rw [hbits.1, hbits.2] at hA
      simp only [if_true] at hA
      have hnact : popCount64 m
          = ((List.range' 2 (rest.length + 2 - 2)).filter (fun k => m.testBit k)).length
            + 2 := by
        rw [popCount64_eq_length_activeIndices _ m hn64 hm, hA]
        simp
      have hnact2 : 2 ≤ popCount64 m := by omega
      apply List.ext_getElem
      · rw [length_swapFirstTwo, length_calculate_exact_recursive,
          length_calculate_exact_recursive]
      · intro k hk1 hk2
        rw [← List.getD_eq_getElem _ 0 hk1, ← List.getD_eq_getElem _ 0 hk2]
        have hkpc : k < popCount64 m := by
          rw [length_calculate_exact_recursive] at hk1
          exact hk1
        rw [getD_swapFirstTwo _ (by rw [length_calculate_exact_recursive]; omega),
          getD_calculate_exact_recursive p (b :: a :: rest) m idx k hnt hsub2m,
          getD_calculate_exact_recursive p (a :: b :: rest) m idx (tau k) hnt hsub,
          sum_map_range, sum_map_range,
          ← sum_range_tau
            (fun i => (winner_contrib p (a :: b :: rest) m idx i).getD (tau k) 0)
            (popCount64 m) hnact2]
        apply Finset.sum_congr rfl
        intro i hi
        rw [Finset.mem_range] at hi
        exact winner_contrib_swap_both p a b rest m idx hn64 hm hbits.1 hbits.2 HIH
          i k hi hkpc
    · rw [if_neg hbits]
      apply List.ext_getElem
      · rw [length_calculate_exact_recursive, length_calculate_exact_recursive, hpc]
      · intro k hk1 hk2
        rw [← List.getD_eq_getElem _ 0 hk1, ← List.getD_eq_getElem _ 0 hk2]
        have hkpc : k < popCount64 m := by
          rw [length_calculate_exact_recursive, hpc] at hk1
          exact hk1
        rw [getD_calculate_exact_recursive p (b :: a :: rest) mm idx k hnt2 hsub2,
          getD_calculate_exact_recursive p (a :: b :: rest) m idx k hnt hsub,
          hpc, sum_map_range, sum_map_range]
        apply Finset.sum_congr rfl
        intro i hi
        rw [Finset.mem_range] at hi
        exact winner_contrib_swap_other p a b rest m mm idx hn64 hm hmm h0 h1 hrest
          hbits HIH i k hi hkpc

/-- C2 (amended): `calculate(y, x)` returns the pair of `calculate(x, y)`
with the two components exchanged whenever the query is answered from a
cache hit with `x ≠ y`, or from a cache miss that takes a deterministic
path: an empty payout structure, or the exact solver (at most 16 payouts
and at most 64 players). The excluded cases genuinely fail: the Monte Carlo
estimator path depends on the per-call random draws, and a hit with `x = y`
on an entry the cache holds for a different stack pair need not be
symmetric (see the counterexample). -/
theorem C2_symmetry (c : ICMCalculator) (d d2 : ℕ → ℕ → ℕ → ℚ) (t t2 : ℕ)
    (cache : ℤ → Option ICMEquity) (x y : ℤ)
    (h : ((cache (min x y)).isSome = true ∧ x ≠ y)
      ∨ (cache (min x y) = none
          ∧ (c.payouts = []
             ∨ (c.payouts.length ≤ 16 ∧ c.other_players_stacks.length + 2 ≤ 64)))) :
    (calculate c d2 t2 cache y x).1
      = ((calculate c d t cache x y).1.2, (calculate c d t cache x y).1.1) := by
  rcases h with ⟨hs, hne⟩ | ⟨hmiss, hcase⟩
  · obtain ⟨e, he⟩ := Option.isSome_iff_exists.mp hs
    have hmin : min y x = min x y := min_comm y x
    unfold calculate
    by_cases hord : x ≤ y
    · have hc2 : cache x = some e := by rwa [min_eq_left hord] at he
      have hyx : ¬y ≤ x := by omega
      simp [hord, hyx, hc2, hmin, he]
    · have hc2 : cache y = some e := by rwa [min_eq_right (le_of_not_le hord)] at he
      have hyx : y ≤ x := le_of_not_le hord
      simp [hord, hyx, hc2, hmin, he]
  · have hmiss2 : cache (min y x) = none := by rwa [min_comm y x]
    by_cases hp : c.payouts = []
    · unfold calculate
      simp [hp, hmiss, hmiss2]
    · have h16 : c.payouts.length ≤ 16 := by
        rcases hcase with hh | hh
        · exact absurd hh hp
        · exact hh.1
      have h64 : c.other_players_stacks.length + 2 ≤ 64 := by
        rcases hcase with hh | hh
        · exact absurd hh hp
        · exact hh.2
      have hcond : ¬(16 < c.payouts.length ∨ 64 < c.other_players_stacks.length + 2) := by
        omega
      have hmaskpos : (0 : ℕ) < 2 ^ (c.other_players_stacks.length + 2) :=
        Nat.pos_pow_of_pos _ (by norm_num)
      have hbit0 : (2 ^ (c.other_players_stacks.length + 2) - 1).testBit 0 = true := by
        rw [Nat.testBit_two_pow_sub_one]
        exact decide_eq_true (by omega)
      have hbit1 : (2 ^ (c.other_players_stacks.length + 2) - 1).testBit 1 = true := by
        rw [Nat.testBit_two_pow_sub_one]
        exact decide_eq_true (by omega)
      have hswap := calculate_exact_recursive_swap c.payouts (x : ℚ) (y : ℚ)
        c.other_players_stacks c.payouts.length 0
        (2 ^ (c.other_players_stacks.length + 2) - 1)
        (2 ^ (c.other_players_stacks.length + 2) - 1)
        (by omega) (by omega) (by omega) h64
        (by rw [hbit0, hbit1]) (by rw [hbit0, hbit1]) (fun k _ => rfl)
      rw [if_pos ⟨hbit0, hbit1⟩] at hswap
      have hlen : 2 ≤ (calculate_exact_recursive c.payouts
          ((x : ℚ) :: (y : ℚ) :: c.other_players_stacks)
          (2 ^ (c.other_players_stacks.length + 2) - 1) 0).length := by
        rw [length_calculate_exact_recursive, popCount64_full_mask _ h64]
        omega
      unfold calculate
      simp only [hmiss, hmiss2]
      rw [if_neg hp, if_neg hp]
      simp only []
      rw [if_neg hcond, if_neg hcond, shiftRight_full_mask _ h64, hswap,
        getD_swapFirstTwo _ hlen 0 0, getD_swapFirstTwo _ hlen 1 0]
      rfl

/-- C2 counterexample for the frozen statement: on a calculator with payouts
`[10]` and no other players, the legitimate query `(1, 3)` stores the
asymmetric pair `(5/2, 15/2)` under the cache key `1`; the later query with
`x = y = 1` hits that entry and returns `(5/2, 15/2)`. With `x = y` the two
calls of the claim are the very same call, so the claim demands this result
equal its own swap `(15/2, 5/2)` — and it does not. -/
theorem C2_symmetry_counterexample :
    (calculate ⟨[10], []⟩ (fun _ _ _ => 0) 1
        ((calculate ⟨[10], []⟩ (fun _ _ _ => 0) 1 (fun _ => none) 1 3).2) 1 1).1
      = (5 / 2, 15 / 2)
    ∧ (calculate ⟨[10], []⟩ (fun _ _ _ => 0) 1
        ((calculate ⟨[10], []⟩ (fun _ _ _ => 0) 1 (fun _ => none) 1 3).2) 1 1).1
      ≠ ((calculate ⟨[10], []⟩ (fun _ _ _ => 0) 1
            ((calculate ⟨[10], []⟩ (fun _ _ _ => 0) 1 (fun _ => none) 1 3).2) 1 1).1.2,
         (calculate ⟨[10], []⟩ (fun _ _ _ => 0) 1
            ((calculate ⟨[10], []⟩ (fun _ _ _ => 0) 1 (fun _ => none) 1 3).2) 1 1).1.1) := by
  have hpc : popCount64 3 = 2 := by decide
  have hrange : List.range 2 = [0, 1] := by decide
  have hai : activeIndices (List.length [(1 : ℚ), 3]) 3 = [0, 1] := by decide
  have hsub : sub_total_stacks [(1 : ℚ), 3] 3 = 4 := by
    unfold sub_total_stacks
    rw [hai]
    norm_num
  have hw0 : winner_contrib [(10 : ℚ)] [(1 : ℚ), 3] 3 0 0 = [5 / 2, 0] := by
    rw [winner_contrib.eq_def]
    simp only [hai, hpc, hrange, hsub]
    norm_num
  have hw1 : winner_contrib [(10 : ℚ)] [(1 : ℚ), 3] 3 0 1 = [0, 15 / 2] := by
    rw [winner_contrib.eq_def]
    simp only [hai, hpc, hrange, hsub]
    norm_num
  have hE : calculate_exact_recursive [(10 : ℚ)] [(1 : ℚ), 3] 3 0 = [5 / 2, 15 / 2] := by
    rw [calculate_exact_recursive.eq_def]
    simp only [hpc, hrange, hsub]
    rw [dif_neg (by norm_num), if_neg (by norm_num)]
    rw [List.map_cons, List.map_cons, List.map_nil, hw0, hw1]
    simp [addVec]
  have hmask : (2 ^ 64 - 1) >>> (64 - 2) = 3 := by decide
  have hc1 : (calculate ⟨[10], []⟩ (fun _ _ _ => 0) 1 (fun _ => none) 1 3).2 1
      = some ⟨5 / 2, 15 / 2⟩ := by
    simp [calculate, hmask, hE]
  have hr : (calculate ⟨[10], []⟩ (fun _ _ _ => 0) 1
      ((calculate ⟨[10], []⟩ (fun _ _ _ => 0) 1 (fun _ => none) 1 3).2) 1 1).1
      = (5 / 2, 15 / 2) := by
    set s1 := (calculate ⟨[10], []⟩ (fun _ _ _ => 0) 1 (fun _ => none) 1 3).2 with hs1
    have hc1s : s1 1 = some ⟨5 / 2, 15 / 2⟩ := by
      rw [hs1]
      exact hc1
    unfold calculate
    simp [hc1s]
  refine ⟨hr, ?_⟩
  rw [hr]
  norm_num [Prod.ext_iff]

/-- Witness for C2's amended statement at a concrete input: a fresh cache,
a 2-player, 1-payout calculator, and the queries `(1, 3)` and `(3, 1)`
(miss, exact path), with different randomness parameters on each side. -/
theorem C2_symmetry_witness :
    ((((fun _ => none : ℤ → Option ICMEquity) (min 1 3)).isSome = true ∧ (1 : ℤ) ≠ 3)
      ∨ ((fun _ => none : ℤ → Option ICMEquity) (min 1 3) = none
          ∧ ((ICMCalculator.mk [(10 : ℚ)] []).payouts = []
             ∨ ((ICMCalculator.mk [(10 : ℚ)] []).payouts.length ≤ 16
                ∧ (ICMCalculator.mk [(10 : ℚ)] []).other_players_stacks.length + 2 ≤ 64))))
    ∧ (calculate ⟨[10], []⟩ (fun _ _ _ => 1) 2 (fun _ => none) 3 1).1
      = ((calculate ⟨[10], []⟩ (fun _ _ _ => 0) 1 (fun _ => none) 1 3).1.2,
         (calculate ⟨[10], []⟩ (fun _ _ _ => 0) 1 (fun _ => none) 1 3).1.1) :=
  ⟨Or.inr ⟨rfl, Or.inr ⟨by norm_num, by norm_num⟩⟩,
   C2_symmetry ⟨[10], []⟩ (fun _ _ _ => 0) (fun _ _ _ => 1) 1 2 (fun _ => none) 1 3
     (Or.inr ⟨rfl, Or.inr ⟨by norm_num, by norm_num⟩⟩)⟩

/-- C10: for a non-empty payout structure, the equity vector produced by
either strategy on the assembled stack vector has length equal to the total
player count, which is at least 2, so the accesses `all_equities[0]` and
`all_equities[1]` in `calculate` are in bounds. (The exact strategy is only
selected when the player count is at most 64, which is the hypothesis of its
conjunct.) -/
theorem C10_index_safety (c : ICMCalculator) (draws : ℕ → ℕ → ℕ → ℚ)
    (num_threads : ℕ) (sa sb : ℤ) (hne : c.payouts ≠ []) :
    2 ≤ c.other_players_stacks.length + 2
    ∧ (calculate_estimate c.payouts ((sa : ℚ) :: (sb : ℚ) :: c.other_players_stacks)
        NUM_ITERS draws num_threads).length = c.other_players_stacks.length + 2
    ∧ (c.other_players_stacks.length + 2 ≤ 64 →
        (calculate_exact_recursive c.payouts ((sa : ℚ) :: (sb : ℚ) :: c.other_players_stacks)
          ((2 ^ 64 - 1) >>> (64 - (c.other_players_stacks.length + 2))) 0).length
        = c.other_players_stacks.length + 2) := by
  refine ⟨by omega, ?_, ?_⟩
  · rw [length_calculate_estimate]
    simp
  · intro h64
    rw [length_calculate_exact_recursive, shiftRight_full_mask _ h64,
      popCount64_full_mask _ h64]

/-- Witness for C10 at a concrete input (2 players, 1 payout). -/
theorem C10_index_safety_witness :
    (([(10 : ℚ)] : List ℚ) ≠ []) ∧
    (2 ≤ List.length ([] : List ℚ) + 2
    ∧ (calculate_estimate [(10 : ℚ)] ((1 : ℚ) :: (3 : ℚ) :: ([] : List ℚ))
        NUM_ITERS (fun _ _ _ => 0) 1).length = List.length ([] : List ℚ) + 2
    ∧ (List.length ([] : List ℚ) + 2 ≤ 64 →
        (calculate_exact_recursive [(10 : ℚ)] ((1 : ℚ) :: (3 : ℚ) :: ([] : List ℚ))
          ((2 ^ 64 - 1) >>> (64 - (List.length ([] : List ℚ) + 2))) 0).length
        = List.length ([] : List ℚ) + 2)) :=
  ⟨by simp, C10_index_safety ⟨[10], []⟩ (fun _ _ _ => 0) 1 1 3 (by simp)⟩

/-- C3: on a cache miss with a non-empty payout structure, `calculate`
dispatches to the Monte Carlo estimator exactly when the payout count
exceeds 16 or the total player count exceeds 64; otherwise it dispatches to
the exact solver at payout position 0 with the full mask, whose source
expression `u64::MAX >> (64 - num_players)` equals `2 ^ num_players - 1`
(all player bits set). -/
theorem C3_dispatch (c : ICMCalculator) (draws : ℕ → ℕ → ℕ → ℚ) (num_threads : ℕ)
    (cache : ℤ → Option ICMEquity) (sa sb : ℤ)
    (hmiss : cache (min sa sb) = none) (hne : c.payouts ≠ []) :
    (16 < c.payouts.length ∨ 64 < c.other_players_stacks.length + 2 →
      (calculate c draws num_threads cache sa sb).1
        = ((calculate_estimate c.payouts ((sa : ℚ) :: (sb : ℚ) :: c.other_players_stacks)
              NUM_ITERS draws num_threads).getD 0 0,
           (calculate_estimate c.payouts ((sa : ℚ) :: (sb : ℚ) :: c.other_players_stacks)
              NUM_ITERS draws num_threads).getD 1 0))
    ∧ (¬(16 < c.payouts.length ∨ 64 < c.other_players_stacks.length + 2) →
      (2 ^ 64 - 1) >>> (64 - (c.other_players_stacks.length + 2))
          = 2 ^ (c.other_players_stacks.length + 2) - 1
        ∧ (calculate c draws num_threads cache sa sb).1
          = ((calculate_exact_recursive c.payouts
                ((sa : ℚ) :: (sb : ℚ) :: c.other_players_stacks)
                (2 ^ (c.other_players_stacks.length + 2) - 1) 0).getD 0 0,
             (calculate_exact_recursive c.payouts
                ((sa : ℚ) :: (sb : ℚ) :: c.other_players_stacks)
                (2 ^ (c.other_players_stacks.length + 2) - 1) 0).getD 1 0)) := by
  constructor
  · intro hcond
    unfold calculate
    simp [hmiss, hne, hcond]
  · intro hcond
    have h64 : c.other_players_stacks.length + 2 ≤ 64 := by push_neg at hcond; omega
    refine ⟨shiftRight_full_mask _ h64, ?_⟩
    unfold calculate
    simp only [hmiss]
    rw [if_neg hne]
    simp only []
    rw [if_neg hcond, shiftRight_full_mask _ h64]

/-- Witness for C3 at a concrete input (1 payout, 2 players: the exact branch
is selected). -/
theorem C3_dispatch_witness :
    ((fun _ => none : ℤ → Option ICMEquity) (min 1 3) = none
        ∧ ([(10 : ℚ)] : List ℚ) ≠ [])
    ∧ (¬(16 < List.length ([(10 : ℚ)] : List ℚ)
          ∨ 64 < List.length ([] : List ℚ) + 2) →
      (2 ^ 64 - 1) >>> (64 - (List.length ([] : List ℚ) + 2))
          = 2 ^ (List.length ([] : List ℚ) + 2) - 1
        ∧ (calculate ⟨[10], []⟩ (fun _ _ _ => 0) 1 (fun _ => none) 1 3).1
          = ((calculate_exact_recursive [(10 : ℚ)] ((1 : ℚ) :: (3 : ℚ) :: ([] : List ℚ))
                (2 ^ (List.length ([] : List ℚ) + 2) - 1) 0).getD 0 0,
             (calculate_exact_recursive [(10 : ℚ)] ((1 : ℚ) :: (3 : ℚ) :: ([] : List ℚ))
                (2 ^ (List.length ([] : List ℚ) + 2) - 1) 0).getD 1 0)) :=
  ⟨⟨rfl, by simp⟩,
    (C3_dispatch ⟨[10], []⟩ (fun _ _ _ => 0) 1 (fun _ => none) 1 3 rfl (by simp)).2⟩

/-- Witness for C8 at a concrete input (a 2-player, 1-payout calculator,
fresh cache). -/
theorem C8_determinism_witness :
    List.length ([(10 : ℚ)] : List ℚ) ≤ 16
      ∧ List.length ([] : List ℚ) + 2 ≤ 64
      ∧ (calculate ⟨[10], []⟩ (fun _ _ _ => 1) 2
          (calculate ⟨[10], []⟩ (fun _ _ _ => 0) 1 (fun _ => none) 1 3).2 1 3).1
        = (calculate ⟨[10], []⟩ (fun _ _ _ => 0) 1 (fun _ => none) 1 3).1 :=
  ⟨by norm_num, by norm_num,
    C8_determinism ⟨[10], []⟩ (fun _ _ _ => 0) (fun _ _ _ => 1) 1 2 (fun _ => none) 1 3
      (by norm_num) (by norm_num)⟩

end ICM
